import Mathlib

/-!
Verification of the VP8 boolean/arithmetic decoder core of `image-webp`.

Shallow embedding of:
  * `src/bool_reader.rs` — `BoolReader` with explicit `bit_count`,
  * `src/vp8_arithmetic_decoder.rs` — `ArithmeticDecoder` with wide `xrange`,
  * `src/transform.rs` — `idct4x4` and `iwht4x4`.

Machine integers are modelled as `Nat` (with explicit `% 2 ^ 64` where the
Rust `u64` left shifts may wrap, and `% 2 ^ 32` on `u32` shifts) and `Int`
for the signed quantities (`bit_count: i32`, `final_bytes_remaining: i8`,
signed coefficients).  Fallible operations return `Except DecodingError`.
-/

namespace ImageWebp

/-- Errors surfaced by the decoder core (from `decoder::DecodingError`;
only the two variants reachable from this core are modelled). -/
inductive DecodingError where
  | NotEnoughInitData
  | BitStreamError
deriving DecidableEq, Repr

/-- A 4-byte chunk, `[u8; 4]` in the source. -/
structure Chunk where
  b0 : Fin 256
  b1 : Fin 256
  b2 : Fin 256
  b3 : Fin 256
deriving DecidableEq, Repr

/-- The all-zero chunk, `<[u8; 4]>::default()`. -/
def zeroChunk : Chunk := ⟨0, 0, 0, 0⟩

/-- Big-endian interpretation of a chunk, `u32::from_be_bytes`. -/
def fromBeBytes (c : Chunk) : Nat :=
  ((c.b0.val * 256 + c.b1.val) * 256 + c.b2.val) * 256 + c.b3.val

/-- The split computation shared by every bit read:
`1 + (((range - 1) * probability) >> 8)`. -/
def splitOf (range probability : Nat) : Nat :=
  1 + (range - 1) * probability / 256

/-- Fuel-driven binary length (so that kernel reduction works); agrees with
`Nat.size` whenever `n < 2 ^ fuel`. -/
def sizeAux : Nat → Nat → Nat
  | 0, _ => 0
  | fuel + 1, n => if n = 0 then 0 else sizeAux fuel (n / 2) + 1

/-- Binary length of a machine word (`u32` or `u64` value): position of the
highest set bit plus one.  `leading_zeros` of a `u32` value `r` is
`32 - bsize r`, and of a `u64` value `x` it is `64 - bsize x`. -/
def bsize (n : Nat) : Nat := sizeAux 64 n

/-- The three tail bytes, `final_bytes: [u8; 3]`. -/
structure FinalBytes where
  f0 : Fin 256
  f1 : Fin 256
  f2 : Fin 256
deriving DecidableEq, Repr

/-- One step of `final_bytes.rotate_left(1)`. -/
def FinalBytes.rot (f : FinalBytes) : FinalBytes := ⟨f.f1, f.f2, f.f0⟩

/-- The sentinel value `FINAL_BYTES_REMAINING_EOF = -0xE`. -/
def eofSentinel : Int := -14

/-- A probability-tree node.  The `prob`, `left`, `right` and `index` fields
are the `u8` fields of `vp8::TreeNode` used by the decoder core. -/
structure TreeNode where
  left : Nat
  right : Nat
  prob : Nat
  index : Nat
deriving DecidableEq, Repr

/-- Modelled from the spec: `TreeNode::value_from_branch` lives in `vp8.rs`,
which is not among the provided sources.  The spec describes it as "a fixed
reversible mapping from the out-of-range index to a signed leaf value"; we
model it as reading the branch code's high bit as a sign marker (an
injective, hence reversible, mapping on the byte-sized branch codes). -/
def TreeNode.value_from_branch (t : Nat) : Int :=
  if 128 ≤ t then -(Int.ofNat (t - 127)) else Int.ofNat t

instance : Inhabited TreeNode := ⟨⟨0, 0, 0, 0⟩⟩

/-- Well-formedness of a tree table, following the spec: "every path
eventually reaches an out-of-range target".  We express it through a rank
function that strictly decreases along every in-table edge. -/
def WfRank (tree : List TreeNode) (M : Nat → Nat) : Prop :=
  ∀ i, i < tree.length →
    ((tree.getD i default).left < tree.length →
      M (tree.getD i default).left < M i) ∧
    ((tree.getD i default).right < tree.length →
      M (tree.getD i default).right < M i)


/-! ## Inverse transforms (`src/transform.rs`) -/

/-- A 4×4 coefficient block of signed integers. -/
def Blk : Type := Fin 4 → Fin 4 → Int

/-- Arithmetic shift right (Rust `>>` on a signed integer), i.e. floor
division by a power of two. -/
def sar (x : Int) (k : Nat) : Int := Int.fdiv x (2 ^ k)

/-- Wrapping conversion to `i32` (Rust `as i32`). -/
def i32wrap (x : Int) : Int := (x + 2 ^ 31) % 2 ^ 32 - 2 ^ 31

/-- `CONST1 = 20091`. -/
def CONST1 : Int := 20091

/-- `CONST2 = 35468`. -/
def CONST2 : Int := 35468

/-- First (column) pass of `idct4x4`, `idct_impl_part1`. -/
def idct_impl_part1 (block : Blk) : Blk := fun y x =>
  let t0 := sar (block 1 x * CONST2) 16
  let t1 := block 3 x + sar (block 3 x * CONST1) 16
  let t2 := block 1 x + sar (block 1 x * CONST1) 16
  let t3 := sar (block 3 x * CONST2) 16
  let a1 := block 0 x + block 2 x
  let b1 := block 0 x - block 2 x
  let c1 := t0 - t1
  let d1 := t2 + t3
  if y = 0 then a1 + d1
  else if y = 1 then b1 + c1
  else if y = 2 then b1 - c1
  else a1 - d1

/-- Second (row) pass of `idct4x4`, `idct_impl_part2` (with its `_a`, `_b`,
`_f` stages fused pointwise: `tees` are built from the `cees` products
shifted right 16, then incremented by `block[y][3]` / `block[y][1]`). -/
def idct_impl_part2 (block : Blk) : Blk := fun y x =>
  let t0 := sar (block y 1 * CONST2) 16
  let t1 := sar (block y 3 * CONST1) 16 + block y 3
  let t2 := sar (block y 1 * CONST1) 16 + block y 1
  let t3 := sar (block y 3 * CONST2) 16
  let a1 := block y 0 + block y 2
  let b1 := block y 0 - block y 2
  let c1 := t0 - t1
  let d1 := t2 + t3
  if x = 0 then a1 + d1
  else if x = 1 then b1 + c1
  else if x = 2 then b1 - c1
  else a1 - d1

/-- Final rounding pass of `idct4x4`, `idct_impl_part3`: `(x + 4) >> 3`. -/
def idct_impl_part3 (block : Blk) : Blk := fun y x =>
  sar (block y x + 4) 3

/-- `transform::idct4x4`: widen to `i64`, three passes, truncate to `i32`. -/
def idct4x4 (block : Blk) : Blk := fun y x =>
  i32wrap (idct_impl_part3 (idct_impl_part2 (idct_impl_part1 block)) y x)

/-- First (column) pass of `iwht4x4`. -/
def iwht_pass1 (block : Blk) : Blk := fun y x =>
  let a1 := block 0 x + block 3 x
  let b1 := block 1 x + block 2 x
  let c1 := block 1 x - block 2 x
  let d1 := block 0 x - block 3 x
  if y = 0 then a1 + b1
  else if y = 1 then c1 + d1
  else if y = 2 then a1 - b1
  else d1 - c1

/-- `transform::iwht4x4`: column pass, then row pass with final rounding
`(x + 3) >> 3`. -/
def iwht4x4 (block : Blk) : Blk := fun y x =>
  let b := iwht_pass1 block
  let a1 := b y 0 + b y 3
  let b1 := b y 1 + b y 2
  let c1 := b y 1 - b y 2
  let d1 := b y 0 - b y 3
  let a2 := a1 + b1
  let b2 := c1 + d1
  let c2 := a1 - b1
  let d2 := d1 - c1
  if x = 0 then sar (a2 + 3) 3
  else if x = 1 then sar (b2 + 3) 3
  else if x = 2 then sar (c2 + 3) 3
  else sar (d2 + 3) 3

/-- The all-zero 4×4 block. -/
def zeroBlk : Blk := fun _ _ => 0

/-! ## `BoolReader` (`src/bool_reader.rs`)

`BitResult<T>` is `#[repr(transparent)]` around a plain `T` (the value is
only trusted after `check`), and `BitResultAccumulator` is a zero-sized
marker; both vanish in the embedding: reads return the raw value and
`check` inspects only the reader's own EOF sentinel. -/

/-- The inner mutable state of `BoolReader`. -/
structure BState where
  chunkIndex : Nat
  value : Nat
  range : Nat
  bitCount : Int
deriving DecidableEq, Repr

/-- `BoolReader`: chunked input plus state plus tail bytes. -/
structure BoolReader where
  chunks : List Chunk
  state : BState
  finalBytes : FinalBytes
  finalBytesRemaining : Int
deriving DecidableEq, Repr

/-- `BoolReader::new()`. -/
def BoolReader.new : BoolReader :=
  { chunks := []
    state := { chunkIndex := 0, value := 0, range := 255, bitCount := -8 }
    finalBytes := ⟨0, 0, 0⟩
    finalBytesRemaining := eofSentinel }

/-- `BoolReader::init(buf, len)`: split the buffer into whole chunks plus a
tail of up to 3 bytes taken from a popped partial last chunk. -/
def BoolReader.init (buf : List Chunk) (len : Nat) :
    Except DecodingError BoolReader :=
  if len = 4 * buf.length then
    Except.ok
      { chunks := buf
        state := { chunkIndex := 0, value := 0, range := 255, bitCount := -8 }
        finalBytes := ⟨0, 0, 0⟩
        finalBytesRemaining := 0 }
  else
    match buf.getLast? with
    | none => Except.error DecodingError.NotEnoughInitData
    | some lastChunk =>
        let rest := buf.dropLast
        let numBytesPopped := len - 4 * rest.length
        Except.ok
          { chunks := rest
            state := { chunkIndex := 0, value := 0, range := 255, bitCount := -8 }
            finalBytes :=
              ⟨if 1 ≤ numBytesPopped then lastChunk.b0 else 0,
               if 2 ≤ numBytesPopped then lastChunk.b1 else 0,
               if 3 ≤ numBytesPopped then lastChunk.b2 else 0⟩
            finalBytesRemaining := Int.ofNat numBytesPopped }

/-- `BoolReader::is_past_eof`. -/
def BoolReader.isPastEof (r : BoolReader) : Bool :=
  r.finalBytesRemaining = eofSentinel

/-- `BoolReader::check`: the deferred-validity check. -/
def BoolReader.check {α : Type} (r : BoolReader) (v : α) :
    Except DecodingError α :=
  if r.isPastEof then Except.error DecodingError.BitStreamError
  else Except.ok v

/-- `BoolReader::load_final_bytes`: consume one tail byte; when the tail is
exhausted, shift in one implicit zero byte; on any later attempt, set the
EOF sentinel. -/
def BoolReader.loadFinalBytes (r : BoolReader) : BoolReader :=
  if 0 < r.finalBytesRemaining then
    { r with
      finalBytesRemaining := r.finalBytesRemaining - 1
      finalBytes := r.finalBytes.rot
      state := { r.state with
        value := r.state.value * 2 ^ 8 % 2 ^ 64 + r.finalBytes.f0.val
        bitCount := r.state.bitCount + 8 } }
  else if r.finalBytesRemaining = 0 then
    { r with
      finalBytesRemaining := r.finalBytesRemaining - 1
      state := { r.state with
        value := r.state.value * 2 ^ 8 % 2 ^ 64
        bitCount := r.state.bitCount + 8 } }
  else
    { r with finalBytesRemaining := eofSentinel }

/-- Refill `BState` from one 4-byte chunk (the chunk branch of the refill in
`cold_read_bit` / `fast_read_bit`). -/
def BState.refillChunk (s : BState) (c : Chunk) : BState :=
  { s with
    chunkIndex := s.chunkIndex + 1
    value := s.value * 2 ^ 32 % 2 ^ 64 + fromBeBytes c
    bitCount := s.bitCount + 32 }

/-- The common split/update/renormalize body of `BoolReader::cold_read_bit`
and `FastReader::fast_read_bit` (the Rust sources duplicate this text; after
the refill the two functions are identical).  The renormalization shift is
`range.leading_zeros().saturating_sub(24)`, i.e. `8 - size range` for a
`u32` of at most one significant byte. -/
def BState.bitBody (s : BState) (probability : Nat) : Bool × BState :=
  let split := splitOf s.range probability
  let bigsplit := split * 2 ^ s.bitCount.toNat
  if bigsplit ≤ s.value then
    let range := s.range - split
    let shift := 32 - bsize range - 24
    (true, { s with
      value := s.value - bigsplit
      range := range * 2 ^ shift % 2 ^ 32
      bitCount := s.bitCount - Int.ofNat shift })
  else
    let range := split
    let shift := 32 - bsize range - 24
    (false, { s with
      range := range * 2 ^ shift % 2 ^ 32
      bitCount := s.bitCount - Int.ofNat shift })

/-- `BoolReader::cold_read_bit`: refill (from chunks, else from the tail
bytes) when fewer than zero bits are buffered, fail when past EOF, then run
the split/update/renormalize body. -/
def BoolReader.coldReadBit (r : BoolReader) (probability : Nat) :
    Bool × BoolReader :=
  if r.state.bitCount < 0 then
    match r.chunks.get? r.state.chunkIndex with
    | some c =>
        let s := r.state.refillChunk c
        let p := s.bitBody probability
        (p.1, { r with state := p.2 })
    | none =>
        let r1 := r.loadFinalBytes
        if r1.isPastEof then (false, r1)
        else
          let p := r1.state.bitBody probability
          (p.1, { r1 with state := p.2 })
  else
    let p := r.state.bitBody probability
    (p.1, { r with state := p.2 })

/-- `FastReader::fast_read_bit`: identical body, but on refill an absent
chunk is silently replaced by the zero chunk (while still advancing
`chunk_index`, so the overrun is observable). -/
def fastReadBitB (chunks : List Chunk) (s : BState) (probability : Nat) :
    Bool × BState :=
  let s1 :=
    if s.bitCount < 0 then
      s.refillChunk ((chunks.get? s.chunkIndex).getD zeroChunk)
    else s
  s1.bitBody probability

/-- `FastReader::commit_if_valid`, specialized to its use sites: the fast
state is committed only when its `chunk_index` stayed strictly below the
chunk count. -/
def commitIfValidB {α : Type} (r : BoolReader) (s : BState) (v : α) :
    Option (α × BoolReader) :=
  if s.chunkIndex < r.chunks.length then some (v, { r with state := s })
  else none

/-- `BoolReader::read_bool` (public): speculative fast path, falling back to
`cold_read_bool = cold_read_bit` when the fast state may not be committed. -/
def BoolReader.readBool (r : BoolReader) (probability : Nat) :
    Bool × BoolReader :=
  let p := fastReadBitB r.chunks r.state probability
  match commitIfValidB r p.2 p.1 with
  | some res => res
  | none => r.coldReadBit probability

/-- `BoolReader::read_flag() = read_bool(128)`. -/
def BoolReader.readFlag (r : BoolReader) : Bool × BoolReader :=
  r.readBool 128

/-- Accumulation loop of `BoolReader::cold_read_literal`:
`v = (v << 1) + b` on a `u8`. -/
def BoolReader.coldReadLiteralAux (r : BoolReader) (n : Nat) (v : Nat) :
    Nat × BoolReader :=
  match n with
  | 0 => (v, r)
  | n + 1 =>
      let p := r.coldReadBit 128
      p.2.coldReadLiteralAux n ((v * 2 + cond p.1 1 0) % 256)

/-- `BoolReader::cold_read_literal(n)`. -/
def BoolReader.coldReadLiteral (r : BoolReader) (n : Nat) : Nat × BoolReader :=
  r.coldReadLiteralAux n 0

/-- Accumulation loop of `FastReader::fast_read_literal`. -/
def fastReadLiteralAuxB (chunks : List Chunk) (s : BState) (n : Nat) (v : Nat) :
    Nat × BState :=
  match n with
  | 0 => (v, s)
  | n + 1 =>
      let p := fastReadBitB chunks s 128
      fastReadLiteralAuxB chunks p.2 n ((v * 2 + cond p.1 1 0) % 256)

/-- `BoolReader::read_literal` (public): fast path with commit, cold
fallback. -/
def BoolReader.readLiteral (r : BoolReader) (n : Nat) : Nat × BoolReader :=
  let p := fastReadLiteralAuxB r.chunks r.state n 0
  match commitIfValidB r p.2 p.1 with
  | some res => res
  | none => r.coldReadLiteral n

/-- `BoolReader::cold_read_magnitude_and_sign(n)`: an `n`-bit magnitude then
one sign bit. -/
def BoolReader.coldReadMagnitudeAndSign (r : BoolReader) (n : Nat) :
    Int × BoolReader :=
  let m := r.coldReadLiteral n
  let s := m.2.coldReadBit 128
  (if s.1 then -(Int.ofNat m.1) else Int.ofNat m.1, s.2)

/-- `FastReader::fast_read_magnitude_and_sign(n)`. -/
def fastReadMagnitudeAndSignB (chunks : List Chunk) (s : BState) (n : Nat) :
    Int × BState :=
  let m := fastReadLiteralAuxB chunks s n 0
  let sg := fastReadBitB chunks m.2 128
  (if sg.1 then -(Int.ofNat m.1) else Int.ofNat m.1, sg.2)

/-- `BoolReader::read_magnitude_and_sign` (public). -/
def BoolReader.readMagnitudeAndSign (r : BoolReader) (n : Nat) :
    Int × BoolReader :=
  let p := fastReadMagnitudeAndSignB r.chunks r.state n
  match commitIfValidB r p.2 p.1 with
  | some res => res
  | none => r.coldReadMagnitudeAndSign n

/-- Loop of `BoolReader::cold_read_with_tree`, with explicit fuel (the Rust
loop has none); `none` models both fuel exhaustion and the `tree[index]`
panic on an out-of-bounds start. -/
def BoolReader.coldTreeWalk (tree : List TreeNode) (fuel : Nat) (index : Nat)
    (r : BoolReader) : Option (Int × BoolReader) :=
  match fuel with
  | 0 => none
  | fuel + 1 =>
      match tree.get? index with
      | none => none
      | some node =>
          let p := r.coldReadBit node.prob
          let t := if p.1 then node.right else node.left
          if t < tree.length then BoolReader.coldTreeWalk tree fuel t p.2
          else some (TreeNode.value_from_branch t, p.2)

/-- Loop of `FastReader::fast_read_with_tree`, with explicit fuel.  The fast
loop tests membership before reading, so an out-of-range index returns the
leaf value immediately. -/
def fastTreeWalkB (chunks : List Chunk) (tree : List TreeNode) (fuel : Nat)
    (i : Nat) (s : BState) : Option (Int × BState) :=
  match fuel with
  | 0 => none
  | fuel + 1 =>
      match tree.get? i with
      | none => some (TreeNode.value_from_branch i, s)
      | some node =>
          let p := fastReadBitB chunks s node.prob
          fastTreeWalkB chunks tree fuel (if p.1 then node.right else node.left) p.2

/-- `BoolReader::read_with_tree(tree, skip)` (public), with fuel threaded to
both paths. -/
def BoolReader.readWithTree (r : BoolReader) (tree : List TreeNode)
    (skip : Bool) (fuel : Nat) : Option (Int × BoolReader) :=
  match fastTreeWalkB r.chunks tree fuel (cond skip 1 0) r.state with
  | some p =>
      match commitIfValidB r p.2 p.1 with
      | some res => some res
      | none => BoolReader.coldTreeWalk tree fuel (cond skip 1 0) r
  | none => BoolReader.coldTreeWalk tree fuel (cond skip 1 0) r

/-! ## `ArithmeticDecoder` (`src/vp8_arithmetic_decoder.rs`)

Same protocol as `BoolReader`, but the interval width and the bit counter
are fused into one wide word `xrange`: the width is the top byte of
`xrange` and the bit offset is `bit_count = 56 - leading_zeros(xrange)`,
i.e. `bsize xrange - 8`. -/

/-- The inner mutable state of `ArithmeticDecoder`. -/
structure AState where
  chunkIndex : Nat
  value : Nat
  xrange : Nat
deriving DecidableEq, Repr

/-- `ArithmeticDecoder`. -/
structure ADecoder where
  chunks : List Chunk
  state : AState
  finalBytes : FinalBytes
  finalBytesRemaining : Int
deriving DecidableEq, Repr

/-- `ArithmeticDecoder::new()`. -/
def ADecoder.new : ADecoder :=
  { chunks := []
    state := { chunkIndex := 0, value := 0, xrange := 0 }
    finalBytes := ⟨0, 0, 0⟩
    finalBytesRemaining := eofSentinel }

/-- `ArithmeticDecoder::initialized(buf, len)`: split the buffer like
`BoolReader::init`, then preload the state from the first chunk, or from
the first tail byte (or the implicit zero byte) when there is none. -/
def ADecoder.initialized (buf : List Chunk) (len : Nat) :
    Except DecodingError ADecoder :=
  let framed : Except DecodingError (List Chunk × FinalBytes × Int) :=
    if len = 4 * buf.length then Except.ok (buf, ⟨0, 0, 0⟩, 0)
    else
      match buf.getLast? with
      | none => Except.error DecodingError.NotEnoughInitData
      | some lastChunk =>
          let rest := buf.dropLast
          let numBytesPopped := len - 4 * rest.length
          Except.ok (rest,
            ⟨if 1 ≤ numBytesPopped then lastChunk.b0 else 0,
             if 2 ≤ numBytesPopped then lastChunk.b1 else 0,
             if 3 ≤ numBytesPopped then lastChunk.b2 else 0⟩,
            Int.ofNat numBytesPopped)
  match framed with
  | Except.error e => Except.error e
  | Except.ok (chunks, finalBytes, finalBytesRemaining) =>
      match chunks.get? 0 with
      | some c =>
          Except.ok
            { chunks := chunks
              state := { chunkIndex := 1, value := fromBeBytes c,
                         xrange := 0xFF000000 }
              finalBytes := finalBytes
              finalBytesRemaining := finalBytesRemaining }
      | none =>
          let value : Nat :=
            if 0 < finalBytesRemaining then finalBytes.f0.val else 0
          let finalBytes1 :=
            if 0 < finalBytesRemaining then finalBytes.rot else finalBytes
          Except.ok
            { chunks := chunks
              state := { chunkIndex := 1, value := value, xrange := 0xFF }
              finalBytes := finalBytes1
              finalBytesRemaining := finalBytesRemaining - 1 }

/-- `ArithmeticDecoder::is_past_eof`. -/
def ADecoder.isPastEof (d : ADecoder) : Bool :=
  d.finalBytesRemaining = eofSentinel

/-- `ArithmeticDecoder::check`. -/
def ADecoder.check {α : Type} (d : ADecoder) (v : α) :
    Except DecodingError α :=
  if d.isPastEof then Except.error DecodingError.BitStreamError
  else Except.ok v

/-- `ArithmeticDecoder::load_from_final_bytes`: shift one tail byte (or,
exactly once, an implicit zero byte) into both `value` and `xrange`; later
attempts set the EOF sentinel. -/
def ADecoder.loadFromFinalBytes (d : ADecoder) : ADecoder :=
  if 0 < d.finalBytesRemaining then
    { d with
      finalBytesRemaining := d.finalBytesRemaining - 1
      finalBytes := d.finalBytes.rot
      state := { d.state with
        xrange := d.state.xrange * 2 ^ 8 % 2 ^ 64
        value := d.state.value * 2 ^ 8 % 2 ^ 64 + d.finalBytes.f0.val } }
  else if d.finalBytesRemaining = 0 then
    { d with
      finalBytesRemaining := d.finalBytesRemaining - 1
      state := { d.state with
        xrange := d.state.xrange * 2 ^ 8 % 2 ^ 64
        value := d.state.value * 2 ^ 8 % 2 ^ 64 } }
  else
    { d with finalBytesRemaining := eofSentinel }

/-- Refill `AState` from one 4-byte chunk. -/
def AState.refillChunk (s : AState) (c : Chunk) : AState :=
  { chunkIndex := s.chunkIndex + 1
    xrange := s.xrange * 2 ^ 32 % 2 ^ 64
    value := s.value * 2 ^ 32 % 2 ^ 64 + fromBeBytes c }

/-- The recovery of the interval width from `xrange`:
`range = xrange >> bit_count` with `bit_count = 56 - xrange.leading_zeros()`
(`bsize xrange - 8`). -/
def recoveredRange (xrange : Nat) : Nat :=
  xrange / 2 ^ (bsize xrange - 8)

/-- The split/update body shared by `ArithmeticDecoder::cold_read_bit` and
`FastDecoder::fast_read_bit` (after the refill the two are identical). -/
def AState.bitBody (s : AState) (probability : Nat) : Bool × AState :=
  let bitCount := bsize s.xrange - 8
  let range := s.xrange / 2 ^ bitCount
  let split := splitOf range probability
  let bigsplit := split * 2 ^ bitCount
  if bigsplit ≤ s.value then
    (true, { s with value := s.value - bigsplit, xrange := s.xrange - bigsplit })
  else
    (false, { s with xrange := bigsplit })

/-- The optimized split/update body of `FastDecoder::fast_read_flag`:
`bigsplit = xrange - ((xrange >> (bit_count + 1)) << bit_count)`. -/
def AState.flagBody (s : AState) : Bool × AState :=
  let bitCount := bsize s.xrange - 8
  let halfRange := s.xrange / 2 ^ (bitCount + 1)
  let halfXrange := halfRange * 2 ^ bitCount
  let bigsplit := s.xrange - halfXrange
  if bigsplit ≤ s.value then
    (true, { s with value := s.value - bigsplit, xrange := halfXrange })
  else
    (false, { s with xrange := bigsplit })

/-- `ArithmeticDecoder::cold_read_bit`: refill (from chunks, else from the
tail bytes) when `xrange.leading_zeros() > 56`, i.e. `xrange < 2^7`, fail
when past EOF, then run the body. -/
def ADecoder.coldReadBit (d : ADecoder) (probability : Nat) :
    Bool × ADecoder :=
  if d.state.xrange < 2 ^ 7 then
    match d.chunks.get? d.state.chunkIndex with
    | some c =>
        let s := d.state.refillChunk c
        let p := s.bitBody probability
        (p.1, { d with state := p.2 })
    | none =>
        let d1 := d.loadFromFinalBytes
        if d1.isPastEof then (false, d1)
        else
          let p := d1.state.bitBody probability
          (p.1, { d1 with state := p.2 })
  else
    let p := d.state.bitBody probability
    (p.1, { d with state := p.2 })

/-- `ArithmeticDecoder::cold_read_bool = cold_read_bit`. -/
def ADecoder.coldReadBool (d : ADecoder) (probability : Nat) :
    Bool × ADecoder :=
  d.coldReadBit probability

/-- `ArithmeticDecoder::cold_read_flag = cold_read_bit(128)`. -/
def ADecoder.coldReadFlag (d : ADecoder) : Bool × ADecoder :=
  d.coldReadBit 128

/-- `FastDecoder::fast_read_bit`: same refill shape but an absent chunk is
replaced by the zero chunk (`unwrap_or_default`), still advancing
`chunk_index`. -/
def fastReadBitA (chunks : List Chunk) (s : AState) (probability : Nat) :
    Bool × AState :=
  let s1 :=
    if s.xrange < 2 ^ 7 then
      s.refillChunk ((chunks.get? s.chunkIndex).getD zeroChunk)
    else s
  s1.bitBody probability

/-- `FastDecoder::fast_read_flag`: same refill, optimized flag body. -/
def fastReadFlagA (chunks : List Chunk) (s : AState) : Bool × AState :=
  let s1 :=
    if s.xrange < 2 ^ 7 then
      s.refillChunk ((chunks.get? s.chunkIndex).getD zeroChunk)
    else s
  s1.flagBody

/-- `FastDecoder::return_if_valid`: the fast state stands only if
`chunk_index` did not pass the chunk count. -/
def returnIfValidA {α : Type} (d : ADecoder) (s : AState) (v : α) :
    Option (α × ADecoder) :=
  if s.chunkIndex ≤ d.chunks.length then some (v, { d with state := s })
  else none

/-- `ArithmeticDecoder::read_bool` (public): snapshot, fast path, commit or
restore-and-cold. -/
def ADecoder.readBool (d : ADecoder) (probability : Nat) : Bool × ADecoder :=
  let p := fastReadBitA d.chunks d.state probability
  match returnIfValidA d p.2 p.1 with
  | some res => res
  | none => d.coldReadBool probability

/-- `ArithmeticDecoder::read_flag` (public). -/
def ADecoder.readFlag (d : ADecoder) : Bool × ADecoder :=
  let p := fastReadFlagA d.chunks d.state
  match returnIfValidA d p.2 p.1 with
  | some res => res
  | none => d.coldReadFlag

/-- Accumulation loop of `ArithmeticDecoder::cold_read_literal`, which
chains `cold_read_flag`. -/
def ADecoder.coldReadLiteralAux (d : ADecoder) (n : Nat) (v : Nat) :
    Nat × ADecoder :=
  match n with
  | 0 => (v, d)
  | n + 1 =>
      let p := d.coldReadFlag
      p.2.coldReadLiteralAux n ((v * 2 + cond p.1 1 0) % 256)

/-- `ArithmeticDecoder::cold_read_literal(n)`. -/
def ADecoder.coldReadLiteral (d : ADecoder) (n : Nat) : Nat × ADecoder :=
  d.coldReadLiteralAux n 0

/-- Accumulation loop of `FastDecoder::fast_read_literal`, which chains
`fast_read_flag`. -/
def fastReadLiteralAuxA (chunks : List Chunk) (s : AState) (n : Nat) (v : Nat) :
    Nat × AState :=
  match n with
  | 0 => (v, s)
  | n + 1 =>
      let p := fastReadFlagA chunks s
      fastReadLiteralAuxA chunks p.2 n ((v * 2 + cond p.1 1 0) % 256)

/-- `ArithmeticDecoder::read_literal` (public). -/
def ADecoder.readLiteral (d : ADecoder) (n : Nat) : Nat × ADecoder :=
  let p := fastReadLiteralAuxA d.chunks d.state n 0
  match returnIfValidA d p.2 p.1 with
  | some res => res
  | none => d.coldReadLiteral n

/-- `ArithmeticDecoder::cold_read_optional_signed_value(n)`: one flag bit;
on `false` stop immediately with 0, otherwise an `n`-bit magnitude and a
sign bit. -/
def ADecoder.coldReadOptionalSignedValue (d : ADecoder) (n : Nat) :
    Int × ADecoder :=
  let f := d.coldReadFlag
  if f.1 = false then (0, f.2)
  else
    let m := f.2.coldReadLiteral n
    let s := m.2.coldReadFlag
    (if s.1 then -(Int.ofNat m.1) else Int.ofNat m.1, s.2)

/-- `FastDecoder::read_optional_signed_value(n)` (including its two
`return_if_valid` exits): returns `none` exactly when the speculative state
may not be committed. -/
def fastReadOptionalSignedValueA (chunks : List Chunk) (s : AState) (n : Nat) :
    Option (Int × AState) :=
  let f := fastReadFlagA chunks s
  if f.1 = false then
    if f.2.chunkIndex ≤ chunks.length then some (0, f.2) else none
  else
    let m := fastReadLiteralAuxA chunks f.2 n 0
    let sg := fastReadFlagA chunks m.2
    if sg.2.chunkIndex ≤ chunks.length then
      some (if sg.1 then -(Int.ofNat m.1) else Int.ofNat m.1, sg.2)
    else none

/-- `ArithmeticDecoder::read_optional_signed_value` (public). -/
def ADecoder.readOptionalSignedValue (d : ADecoder) (n : Nat) :
    Int × ADecoder :=
  match fastReadOptionalSignedValueA d.chunks d.state n with
  | some p => (p.1, { d with state := p.2 })
  | none => d.coldReadOptionalSignedValue n

/-- Loop of `ArithmeticDecoder::cold_read_with_tree`, with explicit fuel;
`none` models both fuel exhaustion and the `tree[index]` panic on an
out-of-bounds start. -/
def ADecoder.coldTreeWalk (tree : List TreeNode) (fuel : Nat) (index : Nat)
    (d : ADecoder) : Option (Int × ADecoder) :=
  match fuel with
  | 0 => none
  | fuel + 1 =>
      match tree.get? index with
      | none => none
      | some node =>
          let p := d.coldReadBit node.prob
          let t := if p.1 then node.right else node.left
          if t < tree.length then ADecoder.coldTreeWalk tree fuel t p.2
          else some (TreeNode.value_from_branch t, p.2)

/-- `ArithmeticDecoder::cold_read_with_tree(tree, start)`. -/
def ADecoder.coldReadWithTree (d : ADecoder) (tree : List TreeNode)
    (start : Nat) (fuel : Nat) : Option (Int × ADecoder) :=
  ADecoder.coldTreeWalk tree fuel start d

/-- Loop of `FastDecoder::fast_read_with_tree`, with explicit fuel: read a
bit at the current node, then either step to the next node or return the
leaf value of the out-of-range branch code. -/
def fastTreeWalkA (chunks : List Chunk) (tree : List TreeNode) (fuel : Nat)
    (node : TreeNode) (s : AState) : Option (Int × AState) :=
  match fuel with
  | 0 => none
  | fuel + 1 =>
      let p := fastReadBitA chunks s node.prob
      let i := if p.1 then node.right else node.left
      match tree.get? i with
      | none => some (TreeNode.value_from_branch i, p.2)
      | some node1 => fastTreeWalkA chunks tree fuel node1 p.2

/-- `ArithmeticDecoder::read_with_tree_with_first_node` (public), with fuel
threaded to both paths; the cold fallback restarts from
`first_node.index`. -/
def ADecoder.readWithTree (d : ADecoder) (tree : List TreeNode)
    (firstNode : TreeNode) (fuel : Nat) : Option (Int × ADecoder) :=
  match fastTreeWalkA d.chunks tree fuel firstNode d.state with
  | some p =>
      match returnIfValidA d p.2 p.1 with
      | some res => some res
      | none => d.coldReadWithTree tree firstNode.index fuel
  | none => none

/-! ## State invariants and the spec-side single-bit step -/

/-- The `xrange` well-formedness invariant of `ArithmeticDecoder`: `xrange`
is a byte-sized factor (the pending interval width) times a power of two
(the bit alignment).  It is established by `initialized` and preserved by
every refill and every bit read. -/
def InvX (xr : Nat) : Prop :=
  ∃ m k, 1 ≤ m ∧ m ≤ 255 ∧ k ≤ 56 ∧ xr = m * 2 ^ k

/-- The normalized form of `xrange` at the moment a bit read recovers
`range` from it (after the refill guard): a width in `[128, 256)` times the
bit alignment. -/
def NormX (xr : Nat) : Prop :=
  ∃ r bc, 128 ≤ r ∧ r ≤ 255 ∧ bc ≤ 56 ∧ xr = r * 2 ^ bc

/-- The renormalization shift demanded by the spec: the number of left
shifts needed so that a nonzero byte-sized `range` lands in `[128, 256)`
(zero for an already-normalized range). -/
def normShift (range : Nat) : Nat := 8 - bsize range

/-- The single-bit update written from the spec's words (§4.2 steps 2–5):
compute `split = 1 + (((range - 1) * p) >> 8)` and align it as `bigsplit`;
if `value ≥ bigsplit`, the bit is true, `value -= bigsplit`,
`range -= split`; otherwise the bit is false and `range = split`; then
renormalize `range` into `[128, 256)`, decreasing the bit counter by the
shift.  To be compared with `BState.bitBody`, which is translated from the
source. -/
def specReadBitStep (s : BState) (p : Nat) : Bool × BState :=
  let split := 1 + (s.range - 1) * p / 256
  let bigsplit := split * 2 ^ s.bitCount.toNat
  if bigsplit ≤ s.value then
    let range1 := s.range - split
    (true, { s with
      value := s.value - bigsplit
      range := range1 * 2 ^ normShift range1
      bitCount := s.bitCount - Int.ofNat (normShift range1) })
  else
    let range1 := split
    (false, { s with
      range := range1 * 2 ^ normShift range1
      bitCount := s.bitCount - Int.ofNat (normShift range1) })

/-! ## Concrete inputs used by the witnesses and the counterexample -/

/-- The decoder produced by `ArithmeticDecoder::init` on the golden vector
`"hel"` (bytes 104, 101, 108, declared length 3). -/
def adHel : ADecoder :=
  { chunks := []
    state := { chunkIndex := 1, value := 104, xrange := 255 }
    finalBytes := ⟨101, 108, 104⟩
    finalBytesRemaining := 2 }

/-- The reader produced by `BoolReader::init` on the golden vector
`"hel"`. -/
def brHel : BoolReader :=
  { chunks := []
    state := { chunkIndex := 0, value := 0, range := 255, bitCount := -8 }
    finalBytes := ⟨104, 101, 108⟩
    finalBytesRemaining := 3 }

/-- A three-node probability tree shaped like the `TREE` constant of the
decoder's own tests (`tree_nodes_from([2, 4, -0, -1, -2, -3],
[100, 120, 140])`). -/
def testTree : List TreeNode :=
  [⟨1, 2, 100, 0⟩, ⟨128, 129, 120, 1⟩, ⟨130, 131, 140, 2⟩]

/-- A rank function witnessing well-formedness of `testTree`. -/
def testRank (i : Nat) : Nat := 3 - i

/-- The decoder produced by `ArithmeticDecoder::init` on the buffer
`[0, 0, 0]` (one all-zero chunk, declared length 3): the state preloads the
first tail byte, leaving two tail bytes. -/
def adZeros : ADecoder :=
  { chunks := []
    state := { chunkIndex := 1, value := 0, xrange := 255 }
    finalBytes := ⟨0, 0, 0⟩
    finalBytesRemaining := 2 }

/-- A concrete normalized `BoolReader` state with buffered bits. -/
def bsNorm : BState :=
  { chunkIndex := 0, value := 77, range := 200, bitCount := 3 }

/-- A concrete reader around `bsNorm` with no chunks and no tail. -/
def brNorm : BoolReader :=
  { chunks := []
    state := bsNorm
    finalBytes := ⟨0, 0, 0⟩
    finalBytesRemaining := 0 }

/-- A concrete normalized `ArithmeticDecoder` state (`xrange = 255 << 3`). -/
def asNorm : AState := { chunkIndex := 1, value := 5, xrange := 255 * 2 ^ 3 }

/-- A concrete `BoolReader` state at the lower edge of normalization. -/
def bsEdge : BState :=
  { chunkIndex := 0, value := 0, range := 128, bitCount := 0 }

/-- A concrete freshly initialized `ArithmeticDecoder` state
(`xrange = 255 << 24`). -/
def asInit : AState := { chunkIndex := 1, value := 0, xrange := 255 * 2 ^ 24 }

/-- A concrete decoder whose tail bytes are exhausted past the phantom
byte: the EOF sentinel is set and a refill is pending. -/
def adEof : ADecoder :=
  { chunks := []
    state := { chunkIndex := 1, value := 0, xrange := 1 }
    finalBytes := ⟨0, 0, 0⟩
    finalBytesRemaining := eofSentinel }

end ImageWebp

namespace ImageWebp

/-! ## Arithmetic lemmas about `bsize` -/

theorem size_eq_size_div_two {n : Nat} (h : n ≠ 0) :
    Nat.size n = Nat.size (n / 2) + 1 := by
  apply le_antisymm
  · apply Nat.size_le.mpr
    have h1 : n / 2 < 2 ^ Nat.size (n / 2) := Nat.lt_size_self _
    have h2 : n ≤ 2 * (n / 2) + 1 := by omega
    calc n ≤ 2 * (n / 2) + 1 := h2
      _ < 2 * 2 ^ Nat.size (n / 2) := by omega
      _ = 2 ^ (Nat.size (n / 2) + 1) := by ring
  · have : 2 ^ Nat.size (n / 2) ≤ n := by
      by_cases h2 : n / 2 = 0
      · have : n = 1 := by omega
        subst this
        simp [h2, Nat.size_zero]
      · have hpos : 0 < Nat.size (n / 2) :=
          Nat.size_pos.mpr (Nat.pos_of_ne_zero h2)
        have h3 : 2 ^ (Nat.size (n / 2) - 1) ≤ n / 2 :=
          Nat.lt_size.mp (by omega)
        have h4 : 2 ^ Nat.size (n / 2) = 2 * 2 ^ (Nat.size (n / 2) - 1) := by
          conv_lhs => rw [show Nat.size (n / 2) = Nat.size (n / 2) - 1 + 1 by omega]
          ring

        omega
    have := Nat.lt_size.mpr this
    omega

theorem sizeAux_eq_size (fuel : Nat) :
    ∀ n, n < 2 ^ fuel → sizeAux fuel n = Nat.size n := by
  induction fuel with
  | zero =>
      intro n h
      have : n = 0 := by simpa using Nat.lt_one_iff.mp h
      subst this
      simp [sizeAux, Nat.size_zero]
  | succ f ih =>
      intro n h
      by_cases h0 : n = 0
      · subst h0; simp [sizeAux, Nat.size_zero]
      · rw [sizeAux, if_neg h0, ih (n / 2) (by
          have := Nat.pow_succ 2 f
          omega), size_eq_size_div_two h0]

theorem bsize_eq_size {n : Nat} (h : n < 2 ^ 64) : bsize n = Nat.size n :=
  sizeAux_eq_size 64 n h

theorem size_of_byte {r : Nat} (h1 : 128 ≤ r) (h2 : r ≤ 255) :
    Nat.size r = 8 := by
  apply le_antisymm
  · exact Nat.size_le.mpr (by omega)
  · have : 7 < Nat.size r := Nat.lt_size.mpr (by norm_num; omega)
    omega

theorem size_mul_pow {m : Nat} (h : 1 ≤ m) (k : Nat) :
    Nat.size (m * 2 ^ k) = Nat.size m + k := by
  rw [← Nat.shiftLeft_eq]
  exact Nat.size_shiftLeft (by omega) k

theorem mul_pow_lt_two_pow_64 {r bc : Nat} (h2 : r ≤ 255) (h3 : bc ≤ 56) :
    r * 2 ^ bc < 2 ^ 64 := by
  have hp : 0 < 2 ^ bc := Nat.pow_pos (by norm_num)
  have h4 : r * 2 ^ bc < 256 * 2 ^ bc :=
    (Nat.mul_lt_mul_right hp).mpr (by omega)
  have h5 : (256 : Nat) * 2 ^ bc = 2 ^ (bc + 8) := by
    rw [Nat.pow_add]; ring
  have h6 : (2 : Nat) ^ (bc + 8) ≤ 2 ^ 64 :=
    Nat.pow_le_pow_right (by norm_num) (by omega)
  omega

theorem bsize_normx {r bc : Nat} (h1 : 128 ≤ r) (h2 : r ≤ 255)
    (h3 : bc ≤ 56) : bsize (r * 2 ^ bc) = bc + 8 := by
  rw [bsize_eq_size (mul_pow_lt_two_pow_64 h2 h3),
    size_mul_pow (by omega) bc, size_of_byte h1 h2]
  omega

/-! ## Bounds on `splitOf` -/

theorem splitOf_pos (range p : Nat) : 1 ≤ splitOf range p := by
  unfold splitOf; omega

theorem splitOf_le {range p : Nat} (hr : 2 ≤ range) (hp : p ≤ 255) :
    splitOf range p ≤ range - 1 := by
  unfold splitOf
  have h1 : (range - 1) * p ≤ (range - 1) * 255 :=
    Nat.mul_le_mul_left _ hp
  have h2 : (range - 1) * 255 < (range - 1) * 256 := by
    have : 0 < range - 1 := by omega
    omega
  have h3 : (range - 1) * p / 256 < range - 1 :=
    (Nat.div_lt_iff_lt_mul (by norm_num)).mpr (by omega)
  omega

/-! ## Renormalization facts -/

theorem norm_range_mem (r1 : Nat) (h1 : 1 ≤ r1) (h2 : r1 ≤ 255) :
    128 ≤ r1 * 2 ^ normShift r1 ∧ r1 * 2 ^ normShift r1 ≤ 255 := by
  have hlt : r1 < 2 ^ 64 := lt_of_le_of_lt h2 (by norm_num)
  have hb : bsize r1 = Nat.size r1 := bsize_eq_size hlt
  have hs1 : 1 ≤ Nat.size r1 := Nat.size_pos.mpr (by omega)
  have hs8 : Nat.size r1 ≤ 8 := Nat.size_le.mpr (by omega)
  have hlow : 2 ^ (Nat.size r1 - 1) ≤ r1 := Nat.lt_size.mp (by omega)
  have hup : r1 < 2 ^ Nat.size r1 := Nat.lt_size_self r1
  have hns : normShift r1 = 8 - Nat.size r1 := by unfold normShift; omega
  rw [hns]
  constructor
  · have h6 := Nat.mul_le_mul_right (2 ^ (8 - Nat.size r1)) hlow
    rw [← Nat.pow_add] at h6
    have h5 : Nat.size r1 - 1 + (8 - Nat.size r1) = 7 := by omega
    rw [h5] at h6
    norm_num at h6
    exact h6
  · have hpp : 0 < 2 ^ (8 - Nat.size r1) := Nat.pow_pos (by norm_num)
    have h3 : r1 * 2 ^ (8 - Nat.size r1) <
        2 ^ Nat.size r1 * 2 ^ (8 - Nat.size r1) :=
      (Nat.mul_lt_mul_right hpp).mpr hup
    have h4 : 2 ^ Nat.size r1 * 2 ^ (8 - Nat.size r1) ≤ 2 ^ 8 := by
      rw [← Nat.pow_add]
      exact Nat.pow_le_pow_right (by norm_num) (by omega)
    omega

/-- The `BoolReader` bit-read body, written out branch by branch. -/
theorem bitBody_cases (s : BState) (p : Nat) :
    s.bitBody p =
      if splitOf s.range p * 2 ^ s.bitCount.toNat ≤ s.value then
        (true, { s with
          value := s.value - splitOf s.range p * 2 ^ s.bitCount.toNat
          range := (s.range - splitOf s.range p) *
            2 ^ normShift (s.range - splitOf s.range p) % 2 ^ 32
          bitCount := s.bitCount -
            Int.ofNat (normShift (s.range - splitOf s.range p)) })
      else
        (false, { s with
          range := splitOf s.range p * 2 ^ normShift (splitOf s.range p) % 2 ^ 32
          bitCount := s.bitCount - Int.ofNat (normShift (splitOf s.range p)) }) := by
  have hsh : ∀ x : Nat, 32 - bsize x - 24 = normShift x := by
    intro x; unfold normShift; omega
  unfold BState.bitBody
  simp only [hsh]

/-- The spec-side step, written out branch by branch. -/
theorem specReadBitStep_cases (s : BState) (p : Nat) :
    specReadBitStep s p =
      if splitOf s.range p * 2 ^ s.bitCount.toNat ≤ s.value then
        (true, { s with
          value := s.value - splitOf s.range p * 2 ^ s.bitCount.toNat
          range := (s.range - splitOf s.range p) *
            2 ^ normShift (s.range - splitOf s.range p)
          bitCount := s.bitCount -
            Int.ofNat (normShift (s.range - splitOf s.range p)) })
      else
        (false, { s with
          range := splitOf s.range p * 2 ^ normShift (splitOf s.range p)
          bitCount := s.bitCount - Int.ofNat (normShift (splitOf s.range p)) }) :=
  rfl

theorem bitBody_range_mem {s : BState} {p : Nat} (hp : p ≤ 255)
    (h1 : 128 ≤ s.range) (h2 : s.range ≤ 255) :
    128 ≤ (s.bitBody p).2.range ∧ (s.bitBody p).2.range ≤ 255 := by
  have hsp1 := splitOf_pos s.range p
  have hsp2 := splitOf_le (show 2 ≤ s.range by omega) hp
  rw [bitBody_cases]
  by_cases hc : splitOf s.range p * 2 ^ s.bitCount.toNat ≤ s.value
  · rw [if_pos hc]
    have hmem := norm_range_mem (s.range - splitOf s.range p)
      (by omega) (by omega)
    dsimp only
    rw [Nat.mod_eq_of_lt (by omega)]
    exact hmem
  · rw [if_neg hc]
    have hmem := norm_range_mem (splitOf s.range p)
      (by omega) (by omega)
    dsimp only
    rw [Nat.mod_eq_of_lt (by omega)]
    exact hmem

/-- The source body equals the spec-side step on normalized states. -/
theorem bitBody_eq_spec {s : BState} {p : Nat} (hp : p ≤ 255)
    (h1 : 128 ≤ s.range) (h2 : s.range ≤ 255) :
    s.bitBody p = specReadBitStep s p := by
  have hsp1 := splitOf_pos s.range p
  have hsp2 := splitOf_le (show 2 ≤ s.range by omega) hp
  rw [bitBody_cases, specReadBitStep_cases]
  by_cases hc : splitOf s.range p * 2 ^ s.bitCount.toNat ≤ s.value
  · rw [if_pos hc, if_pos hc]
    have hmem := norm_range_mem (s.range - splitOf s.range p)
      (by omega) (by omega)
    rw [Nat.mod_eq_of_lt (by omega)]
  · rw [if_neg hc, if_neg hc]
    have hmem := norm_range_mem (splitOf s.range p)
      (by omega) (by omega)
    rw [Nat.mod_eq_of_lt (by omega)]

/-! ## The `ArithmeticDecoder` body on normalized states -/

theorem adBitBody_decomp {s : AState} {r bc : Nat} (p : Nat)
    (hx : s.xrange = r * 2 ^ bc) (h1 : 128 ≤ r) (h2 : r ≤ 255)
    (h3 : bc ≤ 56) :
    s.bitBody p =
      if splitOf r p * 2 ^ bc ≤ s.value then
        (true, { s with
          value := s.value - splitOf r p * 2 ^ bc
          xrange := (r - splitOf r p) * 2 ^ bc })
      else (false, { s with xrange := splitOf r p * 2 ^ bc }) := by
  have hpow : 0 < 2 ^ bc := Nat.pow_pos (by norm_num)
  have hbs : bsize (r * 2 ^ bc) = bc + 8 := bsize_normx h1 h2 h3
  have hdiv : r * 2 ^ bc / 2 ^ bc = r := Nat.mul_div_cancel r hpow
  have hsub : r * 2 ^ bc - splitOf r p * 2 ^ bc = (r - splitOf r p) * 2 ^ bc :=
    (Nat.sub_mul r (splitOf r p) (2 ^ bc)).symm
  unfold AState.bitBody
  simp only [hx]
  simp only [hbs, Nat.add_sub_cancel, hdiv, hsub]

theorem adFlagBody_decomp {s : AState} {r bc : Nat}
    (hx : s.xrange = r * 2 ^ bc) (h1 : 128 ≤ r) (h2 : r ≤ 255)
    (h3 : bc ≤ 56) :
    s.flagBody =
      if (r - r / 2) * 2 ^ bc ≤ s.value then
        (true, { s with
          value := s.value - (r - r / 2) * 2 ^ bc
          xrange := r / 2 * 2 ^ bc })
      else (false, { s with xrange := (r - r / 2) * 2 ^ bc }) := by
  have hpow : 0 < 2 ^ bc := Nat.pow_pos (by norm_num)
  have hbs : bsize (r * 2 ^ bc) = bc + 8 := bsize_normx h1 h2 h3
  have hhalf : r * 2 ^ bc / 2 ^ (bc + 1) = r / 2 := by
    rw [Nat.pow_succ, ← Nat.div_div_eq_div_mul, Nat.mul_div_cancel r hpow]
  have hsub : r * 2 ^ bc - r / 2 * 2 ^ bc = (r - r / 2) * 2 ^ bc :=
    (Nat.sub_mul r (r / 2) (2 ^ bc)).symm
  unfold AState.flagBody
  simp only [hx]
  simp only [hbs, Nat.add_sub_cancel, hhalf, hsub]

theorem splitOf_128 {r : Nat} (h : 1 ≤ r) : splitOf r 128 = r - r / 2 := by
  unfold splitOf; omega

theorem flagBody_eq_bitBody128 {s : AState} {r bc : Nat}
    (hx : s.xrange = r * 2 ^ bc) (h1 : 128 ≤ r) (h2 : r ≤ 255)
    (h3 : bc ≤ 56) :
    s.flagBody = s.bitBody 128 := by
  rw [adFlagBody_decomp hx h1 h2 h3, adBitBody_decomp 128 hx h1 h2 h3,
    splitOf_128 (by omega), show r - (r - r / 2) = r / 2 by omega]

/-! ## The `xrange` invariant -/

theorem invx_pos {xr : Nat} (h : InvX xr) : 1 ≤ xr := by
  obtain ⟨m, k, hm1, _, _, rfl⟩ := h
  have := Nat.pow_pos (n := k) (show 0 < 2 by norm_num)
  exact Nat.mul_pos (by omega) this

theorem normShift_eq_sub_size {m : Nat} (h : m ≤ 255) :
    normShift m = 8 - Nat.size m := by
  unfold normShift
  rw [bsize_eq_size (lt_of_le_of_lt h (by norm_num))]

theorem normx_of_invx {xr : Nat} (h : InvX xr) (h128 : 2 ^ 7 ≤ xr) :
    NormX xr := by
  obtain ⟨m, k, hm1, hm2, hk, rfl⟩ := h
  have hsm : 1 ≤ Nat.size m := Nat.size_pos.mpr (by omega)
  have hsm8 : Nat.size m ≤ 8 := Nat.size_le.mpr (by omega)
  have hup : m < 2 ^ Nat.size m := Nat.lt_size_self m
  have hkk : 8 ≤ Nat.size m + k := by
    by_contra hc
    push_neg at hc
    have ha : m * 2 ^ k < 2 ^ (Nat.size m + k) := by
      rw [Nat.pow_add]
      exact (Nat.mul_lt_mul_right (Nat.pow_pos (by norm_num))).mpr hup
    have hb : 2 ^ (Nat.size m + k) ≤ 2 ^ 7 :=
      Nat.pow_le_pow_right (by norm_num) (by omega)
    omega
  have hmem := norm_range_mem m (by omega) hm2
  rw [normShift_eq_sub_size hm2] at hmem
  refine ⟨m * 2 ^ (8 - Nat.size m), k - (8 - Nat.size m),
    hmem.1, hmem.2, by omega, ?_⟩
  rw [mul_assoc, ← Nat.pow_add]
  congr 2
  omega

theorem invx_adBitBody {s : AState} {r bc : Nat} (p : Nat)
    (hx : s.xrange = r * 2 ^ bc) (h1 : 128 ≤ r) (h2 : r ≤ 255)
    (h3 : bc ≤ 56) (hp : p ≤ 255) :
    InvX ((s.bitBody p).2.xrange) := by
  have hsp1 := splitOf_pos r p
  have hsp2 := splitOf_le (show 2 ≤ r by omega) hp
  rw [adBitBody_decomp p hx h1 h2 h3]
  by_cases hc : splitOf r p * 2 ^ bc ≤ s.value
  · rw [if_pos hc]
    exact ⟨r - splitOf r p, bc, by omega, by omega, h3, rfl⟩
  · rw [if_neg hc]
    exact ⟨splitOf r p, bc, by omega, by omega, h3, rfl⟩

theorem refill_chunk_xr {s : AState} {c : Chunk} (hlt : s.xrange < 2 ^ 7) :
    (s.refillChunk c).xrange = s.xrange * 2 ^ 32 := by
  unfold AState.refillChunk
  dsimp only
  apply Nat.mod_eq_of_lt
  have : s.xrange * 2 ^ 32 < 2 ^ 7 * 2 ^ 32 :=
    (Nat.mul_lt_mul_right (Nat.pow_pos (by norm_num))).mpr hlt
  omega

theorem invx_after_refill {s : AState} (c : Chunk) (h : InvX s.xrange)
    (hlt : s.xrange < 2 ^ 7) :
    InvX ((s.refillChunk c).xrange) ∧ 2 ^ 7 ≤ (s.refillChunk c).xrange := by
  rw [refill_chunk_xr hlt]
  obtain ⟨m, k, hm1, hm2, hk, hx⟩ := h
  have hk7 : k < 7 := by
    have h1 : 2 ^ k ≤ m * 2 ^ k := Nat.le_mul_of_pos_left _ (by omega)
    have h2 : 2 ^ k < 2 ^ 7 := by omega
    exact (Nat.pow_lt_pow_iff_right (by norm_num)).mp h2
  constructor
  · exact ⟨m, k + 32, hm1, hm2, by omega, by
      rw [hx, mul_assoc, ← Nat.pow_add]⟩
  · have hpos : 1 ≤ s.xrange := by
      rw [hx]
      exact Nat.mul_pos (by omega) (Nat.pow_pos (by norm_num))
    have : 1 * 2 ^ 32 ≤ s.xrange * 2 ^ 32 :=
      Nat.mul_le_mul_right _ hpos
    omega

theorem invx_fastReadBitA {chunks : List Chunk} {s : AState} {p : Nat}
    (h : InvX s.xrange) (hp : p ≤ 255) :
    InvX ((fastReadBitA chunks s p).2.xrange) := by
  unfold fastReadBitA
  by_cases hlt : s.xrange < 2 ^ 7
  · simp only [if_pos hlt]
    obtain ⟨hinv, h128⟩ :=
      invx_after_refill ((chunks.get? s.chunkIndex).getD zeroChunk) h hlt
    obtain ⟨r, bc, h1, h2, h3, hxr⟩ := normx_of_invx hinv h128
    exact invx_adBitBody p hxr h1 h2 h3 hp
  · simp only [if_neg hlt]
    obtain ⟨r, bc, h1, h2, h3, hxr⟩ := normx_of_invx h (by omega)
    exact invx_adBitBody p hxr h1 h2 h3 hp

theorem fastReadFlagA_eq_bit128 {chunks : List Chunk} {s : AState}
    (h : InvX s.xrange) :
    fastReadFlagA chunks s = fastReadBitA chunks s 128 := by
  unfold fastReadFlagA fastReadBitA
  by_cases hlt : s.xrange < 2 ^ 7
  · simp only [if_pos hlt]
    obtain ⟨hinv, h128⟩ :=
      invx_after_refill ((chunks.get? s.chunkIndex).getD zeroChunk) h hlt
    obtain ⟨r, bc, h1, h2, h3, hxr⟩ := normx_of_invx hinv h128
    exact flagBody_eq_bitBody128 hxr h1 h2 h3
  · simp only [if_neg hlt]
    obtain ⟨r, bc, h1, h2, h3, hxr⟩ := normx_of_invx h (by omega)
    exact flagBody_eq_bitBody128 hxr h1 h2 h3

theorem invx_fastReadFlagA {chunks : List Chunk} {s : AState}
    (h : InvX s.xrange) :
    InvX ((fastReadFlagA chunks s).2.xrange) := by
  rw [fastReadFlagA_eq_bit128 h]
  exact invx_fastReadBitA h (by norm_num)

theorem invx_fastLitAux {chunks : List Chunk} :
    ∀ (n : Nat) (s : AState) (v : Nat), InvX s.xrange →
      InvX ((fastReadLiteralAuxA chunks s n v).2.xrange) := by
  intro n
  induction n with
  | zero => intro s v h; exact h
  | succ n ih =>
      intro s v h
      exact ih _ _ (invx_fastReadFlagA h)

/-! ## List indexing helpers -/

/-- The node stored at a valid index, through `getD`. -/
theorem getD_of_get? {tree : List TreeNode} {i : Nat} {node : TreeNode}
    (h : tree.get? i = some node) : tree.getD i default = node := by
  rw [List.getD_eq_get?, h]
  rfl

theorem get?_some_of_lt {α : Type} {l : List α} {n : Nat} (h : n < l.length) :
    ∃ c, l.get? n = some c :=
  ⟨l.get ⟨n, h⟩, List.get?_eq_get h⟩

theorem lt_of_get?_some {α : Type} {l : List α} {n : Nat} {c : α}
    (h : l.get? n = some c) : n < l.length := by
  by_contra hc
  rw [List.get?_eq_none.mpr (by omega)] at h
  exact Option.noConfusion h

/-! ## Fast/cold equivalence for `BoolReader` -/

theorem bitBody_chunkIndex (s : BState) (p : Nat) :
    (s.bitBody p).2.chunkIndex = s.chunkIndex := by
  rw [bitBody_cases]
  by_cases hc : splitOf s.range p * 2 ^ s.bitCount.toNat ≤ s.value
  · rw [if_pos hc]
  · rw [if_neg hc]

theorem refillChunkB_chunkIndex (s : BState) (c : Chunk) :
    (s.refillChunk c).chunkIndex = s.chunkIndex + 1 := rfl

theorem fastReadBitB_mono (chunks : List Chunk) (s : BState) (p : Nat) :
    s.chunkIndex ≤ (fastReadBitB chunks s p).2.chunkIndex := by
  unfold fastReadBitB
  by_cases hbc : s.bitCount < 0
  · simp only [if_pos hbc, bitBody_chunkIndex, refillChunkB_chunkIndex]
    omega
  · simp only [if_neg hbc, bitBody_chunkIndex]
    exact Nat.le_refl _

theorem fast_cold_bit_B {r : BoolReader} {p : Nat}
    (h : (fastReadBitB r.chunks r.state p).2.chunkIndex < r.chunks.length) :
    r.coldReadBit p = ((fastReadBitB r.chunks r.state p).1,
      { r with state := (fastReadBitB r.chunks r.state p).2 }) := by
  by_cases hbc : r.state.bitCount < 0
  · have hidx : r.state.chunkIndex < r.chunks.length := by
      simp only [fastReadBitB, if_pos hbc, bitBody_chunkIndex,
        refillChunkB_chunkIndex] at h
      omega
    obtain ⟨c, hc⟩ := get?_some_of_lt hidx
    simp only [fastReadBitB, if_pos hbc, hc, Option.getD_some]
    unfold BoolReader.coldReadBit
    rw [if_pos hbc, hc]
  · simp only [fastReadBitB, if_neg hbc]
    unfold BoolReader.coldReadBit
    rw [if_neg hbc]

theorem readBool_eq_cold_B (r : BoolReader) (p : Nat) :
    r.readBool p = r.coldReadBit p := by
  by_cases h : (fastReadBitB r.chunks r.state p).2.chunkIndex < r.chunks.length
  · simp only [BoolReader.readBool, commitIfValidB, if_pos h]
    rw [fast_cold_bit_B h]
  · simp only [BoolReader.readBool, commitIfValidB, if_neg h]

theorem fastLitAuxB_mono (chunks : List Chunk) :
    ∀ (n : Nat) (s : BState) (v : Nat),
      s.chunkIndex ≤ (fastReadLiteralAuxB chunks s n v).2.chunkIndex := by
  intro n
  induction n with
  | zero => intro s v; exact Nat.le_refl _
  | succ n ih =>
      intro s v
      exact le_trans (fastReadBitB_mono chunks s 128) (ih _ _)

theorem fast_cold_lit_aux_B :
    ∀ (n : Nat) (r : BoolReader) (v : Nat),
      (fastReadLiteralAuxB r.chunks r.state n v).2.chunkIndex <
        r.chunks.length →
      r.coldReadLiteralAux n v = ((fastReadLiteralAuxB r.chunks r.state n v).1,
        { r with state := (fastReadLiteralAuxB r.chunks r.state n v).2 }) := by
  intro n
  induction n with
  | zero => intro r v _; rfl
  | succ n ih =>
      intro r v h
      unfold BoolReader.coldReadLiteralAux fastReadLiteralAuxB
      unfold fastReadLiteralAuxB at h
      have hstep : (fastReadBitB r.chunks r.state 128).2.chunkIndex <
          r.chunks.length :=
        lt_of_le_of_lt (fastLitAuxB_mono r.chunks n _ _) h
      rw [fast_cold_bit_B hstep]
      exact ih { r with state := (fastReadBitB r.chunks r.state 128).2 } _ h

theorem readLiteral_eq_cold_B (r : BoolReader) (n : Nat) :
    r.readLiteral n = r.coldReadLiteral n := by
  by_cases h : (fastReadLiteralAuxB r.chunks r.state n 0).2.chunkIndex <
      r.chunks.length
  · simp only [BoolReader.readLiteral, commitIfValidB, if_pos h]
    unfold BoolReader.coldReadLiteral
    rw [fast_cold_lit_aux_B n r 0 h]
  · simp only [BoolReader.readLiteral, commitIfValidB, if_neg h]

theorem fast_cold_ms_B {r : BoolReader} {n : Nat}
    (h : (fastReadMagnitudeAndSignB r.chunks r.state n).2.chunkIndex <
      r.chunks.length) :
    r.coldReadMagnitudeAndSign n =
      ((fastReadMagnitudeAndSignB r.chunks r.state n).1,
       { r with state := (fastReadMagnitudeAndSignB r.chunks r.state n).2 }) := by
  have hbit : (fastReadBitB r.chunks
      (fastReadLiteralAuxB r.chunks r.state n 0).2 128).2.chunkIndex <
      r.chunks.length := h
  have hlit : (fastReadLiteralAuxB r.chunks r.state n 0).2.chunkIndex <
      r.chunks.length :=
    lt_of_le_of_lt (fastReadBitB_mono r.chunks _ 128) hbit
  have hbit1 : (fastReadBitB
      ({ r with state := (fastReadLiteralAuxB r.chunks r.state n 0).2 } :
        BoolReader).chunks
      ({ r with state := (fastReadLiteralAuxB r.chunks r.state n 0).2 } :
        BoolReader).state 128).2.chunkIndex <
      ({ r with state := (fastReadLiteralAuxB r.chunks r.state n 0).2 } :
        BoolReader).chunks.length := hbit
  unfold BoolReader.coldReadMagnitudeAndSign BoolReader.coldReadLiteral
  rw [fast_cold_lit_aux_B n r 0 hlit]
  dsimp only
  rw [fast_cold_bit_B hbit1]
  rfl

theorem readMagnitudeAndSign_eq_cold_B (r : BoolReader) (n : Nat) :
    r.readMagnitudeAndSign n = r.coldReadMagnitudeAndSign n := by
  by_cases h : (fastReadMagnitudeAndSignB r.chunks r.state n).2.chunkIndex <
      r.chunks.length
  · simp only [BoolReader.readMagnitudeAndSign, commitIfValidB, if_pos h]
    rw [fast_cold_ms_B h]
  · simp only [BoolReader.readMagnitudeAndSign, commitIfValidB, if_neg h]

theorem fastTreeWalkB_mono (chunks : List Chunk) (tree : List TreeNode) :
    ∀ (fuel i : Nat) (s : BState) (p : Int × BState),
      fastTreeWalkB chunks tree fuel i s = some p →
      s.chunkIndex ≤ p.2.chunkIndex := by
  intro fuel
  induction fuel with
  | zero => intro i s p h; exact Option.noConfusion h
  | succ fuel ih =>
      intro i s p h
      unfold fastTreeWalkB at h
      cases hg : tree.get? i with
      | none =>
          rw [hg] at h
          cases h
          exact Nat.le_refl _
      | some node =>
          rw [hg] at h
          exact le_trans (fastReadBitB_mono chunks s node.prob) (ih _ _ _ h)

theorem fast_cold_tree_B {tree : List TreeNode} :
    ∀ (fuel i : Nat) (r : BoolReader) (p : Int × BState),
      i < tree.length →
      fastTreeWalkB r.chunks tree fuel i r.state = some p →
      p.2.chunkIndex < r.chunks.length →
      BoolReader.coldTreeWalk tree fuel i r = some (p.1, { r with state := p.2 }) := by
  intro fuel
  induction fuel with
  | zero => intro i r p _ h _; exact Option.noConfusion h
  | succ fuel ih =>
      intro i r p hi h hcommit
      obtain ⟨node, hg⟩ := get?_some_of_lt hi
      unfold fastTreeWalkB at h
      rw [hg] at h
      dsimp only at h
      unfold BoolReader.coldTreeWalk
      rw [hg]
      dsimp only
      have hbit : (fastReadBitB r.chunks r.state node.prob).2.chunkIndex <
          r.chunks.length :=
        lt_of_le_of_lt (fastTreeWalkB_mono r.chunks tree fuel _ _ p h) hcommit
      rw [fast_cold_bit_B hbit]
      dsimp only
      by_cases ht : (if (fastReadBitB r.chunks r.state node.prob).1 then
          node.right else node.left) < tree.length
      · rw [if_pos ht]
        exact ih _ { r with state := (fastReadBitB r.chunks r.state node.prob).2 }
          p ht h hcommit
      · rw [if_neg ht]
        -- the next fast call returns the leaf immediately
        cases fuel with
        | zero => exact Option.noConfusion h
        | succ fuel =>
            unfold fastTreeWalkB at h
            rw [List.get?_eq_none.mpr (by omega)] at h
            cases h
            rfl

theorem readWithTree_eq_cold_B (r : BoolReader) (tree : List TreeNode)
    (skip : Bool) (fuel : Nat) (hstart : cond skip 1 0 < tree.length) :
    r.readWithTree tree skip fuel =
      BoolReader.coldTreeWalk tree fuel (cond skip 1 0) r := by
  unfold BoolReader.readWithTree
  cases hfast : fastTreeWalkB r.chunks tree fuel (cond skip 1 0) r.state with
  | none => rfl
  | some p =>
      by_cases h : p.2.chunkIndex < r.chunks.length
      · simp only [commitIfValidB, if_pos h]
        exact (fast_cold_tree_B fuel _ r p hstart hfast h).symm
      · simp only [commitIfValidB, if_neg h]

/-! ## Fast/cold equivalence for `ArithmeticDecoder` -/

theorem adBitBody_chunkIndex (s : AState) (p : Nat) :
    (s.bitBody p).2.chunkIndex = s.chunkIndex := by
  unfold AState.bitBody
  by_cases hc : splitOf (s.xrange / 2 ^ (bsize s.xrange - 8)) p *
      2 ^ (bsize s.xrange - 8) ≤ s.value
  · simp only [if_pos hc]
  · simp only [if_neg hc]

theorem adFlagBody_chunkIndex (s : AState) :
    s.flagBody.2.chunkIndex = s.chunkIndex := by
  unfold AState.flagBody
  by_cases hc : s.xrange - s.xrange / 2 ^ (bsize s.xrange - 8 + 1) *
      2 ^ (bsize s.xrange - 8) ≤ s.value
  · simp only [if_pos hc]
  · simp only [if_neg hc]

theorem refillChunkA_chunkIndex (s : AState) (c : Chunk) :
    (s.refillChunk c).chunkIndex = s.chunkIndex + 1 := rfl

theorem fastReadBitA_mono (chunks : List Chunk) (s : AState) (p : Nat) :
    s.chunkIndex ≤ (fastReadBitA chunks s p).2.chunkIndex := by
  unfold fastReadBitA
  by_cases hx : s.xrange < 2 ^ 7
  · simp only [if_pos hx, adBitBody_chunkIndex, refillChunkA_chunkIndex]
    omega
  · simp only [if_neg hx, adBitBody_chunkIndex]
    exact Nat.le_refl _

theorem fastReadFlagA_mono (chunks : List Chunk) (s : AState) :
    s.chunkIndex ≤ (fastReadFlagA chunks s).2.chunkIndex := by
  unfold fastReadFlagA
  by_cases hx : s.xrange < 2 ^ 7
  · simp only [if_pos hx, adFlagBody_chunkIndex, refillChunkA_chunkIndex]
    omega
  · simp only [if_neg hx, adFlagBody_chunkIndex]
    exact Nat.le_refl _

theorem fast_cold_bit_A {d : ADecoder} {p : Nat}
    (h : (fastReadBitA d.chunks d.state p).2.chunkIndex ≤ d.chunks.length) :
    d.coldReadBit p = ((fastReadBitA d.chunks d.state p).1,
      { d with state := (fastReadBitA d.chunks d.state p).2 }) := by
  by_cases hx : d.state.xrange < 2 ^ 7
  · have hidx : d.state.chunkIndex < d.chunks.length := by
      simp only [fastReadBitA, if_pos hx, adBitBody_chunkIndex,
        refillChunkA_chunkIndex] at h
      omega
    obtain ⟨c, hc⟩ := get?_some_of_lt hidx
    simp only [fastReadBitA, if_pos hx, hc, Option.getD_some]
    unfold ADecoder.coldReadBit
    rw [if_pos hx, hc]
  · simp only [fastReadBitA, if_neg hx]
    unfold ADecoder.coldReadBit
    rw [if_neg hx]

theorem readBool_eq_cold_A (d : ADecoder) (p : Nat) :
    d.readBool p = d.coldReadBool p := by
  by_cases h : (fastReadBitA d.chunks d.state p).2.chunkIndex ≤ d.chunks.length
  · simp only [ADecoder.readBool, returnIfValidA, if_pos h]
    rw [ADecoder.coldReadBool, fast_cold_bit_A h]
  · simp only [ADecoder.readBool, returnIfValidA, if_neg h]

theorem fast_cold_flag_A {d : ADecoder} (hinv : InvX d.state.xrange)
    (h : (fastReadFlagA d.chunks d.state).2.chunkIndex ≤ d.chunks.length) :
    d.coldReadFlag = ((fastReadFlagA d.chunks d.state).1,
      { d with state := (fastReadFlagA d.chunks d.state).2 }) := by
  rw [fastReadFlagA_eq_bit128 hinv] at h ⊢
  rw [ADecoder.coldReadFlag, fast_cold_bit_A h]

theorem readFlag_eq_cold_A (d : ADecoder) (hinv : InvX d.state.xrange) :
    d.readFlag = d.coldReadFlag := by
  by_cases h : (fastReadFlagA d.chunks d.state).2.chunkIndex ≤ d.chunks.length
  · simp only [ADecoder.readFlag, returnIfValidA, if_pos h]
    rw [fast_cold_flag_A hinv h]
  · simp only [ADecoder.readFlag, returnIfValidA, if_neg h]

theorem fastLitAuxA_mono (chunks : List Chunk) :
    ∀ (n : Nat) (s : AState) (v : Nat),
      s.chunkIndex ≤ (fastReadLiteralAuxA chunks s n v).2.chunkIndex := by
  intro n
  induction n with
  | zero => intro s v; exact Nat.le_refl _
  | succ n ih =>
      intro s v
      exact le_trans (fastReadFlagA_mono chunks s) (ih _ _)

theorem fast_cold_lit_aux_A :
    ∀ (n : Nat) (d : ADecoder) (v : Nat), InvX d.state.xrange →
      (fastReadLiteralAuxA d.chunks d.state n v).2.chunkIndex ≤
        d.chunks.length →
      d.coldReadLiteralAux n v = ((fastReadLiteralAuxA d.chunks d.state n v).1,
        { d with state := (fastReadLiteralAuxA d.chunks d.state n v).2 }) := by
  intro n
  induction n with
  | zero => intro d v _ _; rfl
  | succ n ih =>
      intro d v hinv h
      unfold ADecoder.coldReadLiteralAux fastReadLiteralAuxA
      unfold fastReadLiteralAuxA at h
      have hstep : (fastReadFlagA d.chunks d.state).2.chunkIndex ≤
          d.chunks.length :=
        le_trans (fastLitAuxA_mono d.chunks n _ _) h
      rw [fast_cold_flag_A hinv hstep]
      exact ih { d with state := (fastReadFlagA d.chunks d.state).2 } _
        (invx_fastReadFlagA hinv) h

theorem readLiteral_eq_cold_A (d : ADecoder) (n : Nat)
    (hinv : InvX d.state.xrange) :
    d.readLiteral n = d.coldReadLiteral n := by
  by_cases h : (fastReadLiteralAuxA d.chunks d.state n 0).2.chunkIndex ≤
      d.chunks.length
  · simp only [ADecoder.readLiteral, returnIfValidA, if_pos h]
    unfold ADecoder.coldReadLiteral
    rw [fast_cold_lit_aux_A n d 0 hinv h]
  · simp only [ADecoder.readLiteral, returnIfValidA, if_neg h]

theorem readOptionalSignedValue_eq_cold_A (d : ADecoder) (n : Nat)
    (hinv : InvX d.state.xrange) :
    d.readOptionalSignedValue n = d.coldReadOptionalSignedValue n := by
  unfold ADecoder.readOptionalSignedValue fastReadOptionalSignedValueA
  by_cases hf : (fastReadFlagA d.chunks d.state).1 = false
  · rw [if_pos hf]
    by_cases hv : (fastReadFlagA d.chunks d.state).2.chunkIndex ≤
        d.chunks.length
    · rw [if_pos hv]
      unfold ADecoder.coldReadOptionalSignedValue
      rw [fast_cold_flag_A hinv hv]
      dsimp only
      rw [if_pos hf]
    · rw [if_neg hv]
  · rw [if_neg hf]
    by_cases hv : (fastReadFlagA d.chunks
        (fastReadLiteralAuxA d.chunks (fastReadFlagA d.chunks d.state).2 n
          0).2).2.chunkIndex ≤ d.chunks.length
    · rw [if_pos hv]
      have h2 : (fastReadLiteralAuxA d.chunks
          (fastReadFlagA d.chunks d.state).2 n 0).2.chunkIndex ≤
          d.chunks.length :=
        le_trans (fastReadFlagA_mono d.chunks _) hv
      have h1 : (fastReadFlagA d.chunks d.state).2.chunkIndex ≤
          d.chunks.length :=
        le_trans (fastLitAuxA_mono d.chunks n _ 0) h2
      unfold ADecoder.coldReadOptionalSignedValue
      rw [fast_cold_flag_A hinv h1]
      dsimp only
      rw [if_neg hf]
      unfold ADecoder.coldReadLiteral
      have hinv1 : InvX (fastReadFlagA d.chunks d.state).2.xrange :=
        invx_fastReadFlagA hinv
      rw [fast_cold_lit_aux_A n
        { d with state := (fastReadFlagA d.chunks d.state).2 } 0 hinv1 h2]
      dsimp only
      have hinv2 : InvX (fastReadLiteralAuxA d.chunks
          (fastReadFlagA d.chunks d.state).2 n 0).2.xrange :=
        invx_fastLitAux n _ 0 hinv1
      rw [fast_cold_flag_A (d := { d with
        state := (fastReadLiteralAuxA d.chunks
          (fastReadFlagA d.chunks d.state).2 n 0).2 }) hinv2 hv]
    · rw [if_neg hv]

theorem fastTreeWalkA_mono (chunks : List Chunk) (tree : List TreeNode) :
    ∀ (fuel : Nat) (node : TreeNode) (s : AState) (p : Int × AState),
      fastTreeWalkA chunks tree fuel node s = some p →
      s.chunkIndex ≤ p.2.chunkIndex := by
  intro fuel
  induction fuel with
  | zero => intro node s p h; exact Option.noConfusion h
  | succ fuel ih =>
      intro node s p h
      unfold fastTreeWalkA at h
      dsimp only at h
      cases hg : tree.get? (if (fastReadBitA chunks s node.prob).1 then
          node.right else node.left) with
      | none =>
          rw [hg] at h
          cases h
          exact fastReadBitA_mono chunks s node.prob
      | some node1 =>
          rw [hg] at h
          exact le_trans (fastReadBitA_mono chunks s node.prob) (ih _ _ _ h)

theorem fast_cold_tree_A {tree : List TreeNode} :
    ∀ (fuel i : Nat) (node : TreeNode) (d : ADecoder) (p : Int × AState),
      tree.get? i = some node →
      fastTreeWalkA d.chunks tree fuel node d.state = some p →
      p.2.chunkIndex ≤ d.chunks.length →
      ADecoder.coldTreeWalk tree fuel i d = some (p.1, { d with state := p.2 }) := by
  intro fuel
  induction fuel with
  | zero => intro i node d p _ h _; exact Option.noConfusion h
  | succ fuel ih =>
      intro i node d p hg h hcommit
      unfold fastTreeWalkA at h
      dsimp only at h
      unfold ADecoder.coldTreeWalk
      rw [hg]
      dsimp only
      have hbit : (fastReadBitA d.chunks d.state node.prob).2.chunkIndex ≤
          d.chunks.length := by
        cases hg1 : tree.get? (if (fastReadBitA d.chunks d.state node.prob).1
            then node.right else node.left) with
        | none =>
            rw [hg1] at h
            cases h
            exact hcommit
        | some node1 =>
            rw [hg1] at h
            exact le_trans (fastTreeWalkA_mono d.chunks tree fuel _ _ p h)
              hcommit
      rw [fast_cold_bit_A hbit]
      dsimp only
      cases hg1 : tree.get? (if (fastReadBitA d.chunks d.state node.prob).1
          then node.right else node.left) with
      | none =>
          rw [hg1] at h
          cases h
          rw [if_neg (by
            intro hlt
            obtain ⟨c, hc⟩ := get?_some_of_lt hlt
            rw [hc] at hg1
            exact Option.noConfusion hg1)]
      | some node1 =>
          rw [hg1] at h
          rw [if_pos (lt_of_get?_some hg1)]
          exact ih _ node1
            { d with state := (fastReadBitA d.chunks d.state node.prob).2 }
            p hg1 h hcommit

theorem fastTreeWalkA_some {chunks : List Chunk} {tree : List TreeNode}
    {M : Nat → Nat} (hwf : WfRank tree M) :
    ∀ (fuel i : Nat) (node : TreeNode) (s : AState),
      tree.get? i = some node → M i < fuel →
      ∃ p, fastTreeWalkA chunks tree fuel node s = some p := by
  intro fuel
  induction fuel with
  | zero => intro i node s _ h; omega
  | succ fuel ih =>
      intro i node s hg hfuel
      unfold fastTreeWalkA
      dsimp only
      cases hg1 : tree.get? (if (fastReadBitA chunks s node.prob).1 then
          node.right else node.left) with
      | none => exact ⟨_, rfl⟩
      | some node1 =>
          have hi : i < tree.length := lt_of_get?_some hg
          have hi1 := lt_of_get?_some hg1
          have hrank := hwf i hi
          rw [getD_of_get? hg] at hrank
          have hlt : M (if (fastReadBitA chunks s node.prob).1 then
              node.right else node.left) < M i := by
            by_cases hb : (fastReadBitA chunks s node.prob).1
            · rw [if_pos hb]
              rw [if_pos hb] at hi1
              exact hrank.2 hi1
            · rw [if_neg hb]
              rw [if_neg hb] at hi1
              exact hrank.1 hi1
          exact ih _ _ _ hg1 (by omega)

theorem readWithTree_eq_cold_A (d : ADecoder) (tree : List TreeNode)
    (fn : TreeNode) (fuel : Nat) (M : Nat → Nat) (hwf : WfRank tree M)
    (hfuel : ∀ i, i < tree.length → M i < fuel)
    (hfn : tree.get? fn.index = some fn) :
    d.readWithTree tree fn fuel = d.coldReadWithTree tree fn.index fuel := by
  obtain ⟨p, hp⟩ := fastTreeWalkA_some hwf fuel fn.index fn d.state hfn
    (hfuel _ (lt_of_get?_some hfn))
  unfold ADecoder.readWithTree
  rw [hp]
  by_cases h : p.2.chunkIndex ≤ d.chunks.length
  · simp only [returnIfValidA, if_pos h]
    unfold ADecoder.coldReadWithTree
    exact (fast_cold_tree_A fuel fn.index fn d p hfn hp h).symm
  · simp only [returnIfValidA, if_neg h]

/-! ## Tree-walk termination -/

theorem coldTreeWalkA_terminates {tree : List TreeNode} {M : Nat → Nat}
    (hwf : WfRank tree M) :
    ∀ (fuel i : Nat) (d : ADecoder), i < tree.length → M i < fuel →
      ∃ t d1, tree.length ≤ t ∧
        ADecoder.coldTreeWalk tree fuel i d =
          some (TreeNode.value_from_branch t, d1) := by
  intro fuel
  induction fuel with
  | zero => intro i d _ h; omega
  | succ fuel ih =>
      intro i d hi hfuel
      obtain ⟨node, hg⟩ := get?_some_of_lt hi
      unfold ADecoder.coldTreeWalk
      rw [hg]
      dsimp only
      have hrank := hwf i hi
      rw [getD_of_get? hg] at hrank
      by_cases ht : (if (d.coldReadBit node.prob).1 then node.right
          else node.left) < tree.length
      · rw [if_pos ht]
        have hlt : M (if (d.coldReadBit node.prob).1 then node.right
            else node.left) < M i := by
          by_cases hb : (d.coldReadBit node.prob).1
          · rw [if_pos hb]; rw [if_pos hb] at ht; exact hrank.2 ht
          · rw [if_neg hb]; rw [if_neg hb] at ht; exact hrank.1 ht
        exact ih _ _ ht (by omega)
      · rw [if_neg ht]
        exact ⟨_, _, by omega, rfl⟩

theorem fastTreeWalkB_terminates (chunks : List Chunk) {tree : List TreeNode}
    {M : Nat → Nat} (hwf : WfRank tree M) :
    ∀ (fuel i : Nat) (s : BState), i < tree.length → M i + 1 < fuel →
      ∃ t s1, tree.length ≤ t ∧
        fastTreeWalkB chunks tree fuel i s =
          some (TreeNode.value_from_branch t, s1) := by
  intro fuel
  induction fuel with
  | zero => intro i s _ h; omega
  | succ fuel ih =>
      intro i s hi hfuel
      obtain ⟨node, hg⟩ := get?_some_of_lt hi
      unfold fastTreeWalkB
      rw [hg]
      dsimp only
      have hrank := hwf i hi
      rw [getD_of_get? hg] at hrank
      by_cases ht : (if (fastReadBitB chunks s node.prob).1 then node.right
          else node.left) < tree.length
      · have hlt : M (if (fastReadBitB chunks s node.prob).1 then node.right
            else node.left) < M i := by
          by_cases hb : (fastReadBitB chunks s node.prob).1
          · rw [if_pos hb]; rw [if_pos hb] at ht; exact hrank.2 ht
          · rw [if_neg hb]; rw [if_neg hb] at ht; exact hrank.1 ht
        exact ih _ _ ht (by omega)
      · cases fuel with
        | zero => omega
        | succ fuel =>
            unfold fastTreeWalkB
            rw [List.get?_eq_none.mpr (by omega)]
            exact ⟨_, _, by omega, rfl⟩

theorem recoveredRange_normx {r bc : Nat} (h1 : 128 ≤ r) (h2 : r ≤ 255)
    (h3 : bc ≤ 56) : recoveredRange (r * 2 ^ bc) = r := by
  unfold recoveredRange
  rw [bsize_normx h1 h2 h3]
  have : bc + 8 - 8 = bc := by omega
  rw [this, Nat.mul_div_cancel r (Nat.pow_pos (by norm_num))]

/-! ## Claim theorems -/

/-- C10: `idct4x4` and `iwht4x4` applied to the all-zero 4×4 block yield the
all-zero block; both are pure total functions on a 4×4 integer matrix, and
the final roundings `(x + 4) >> 3` resp. `(x + 3) >> 3` map the zero
intermediates to zero outputs. -/
theorem transforms_zero_block :
    (∀ y x : Fin 4, idct4x4 zeroBlk y x = 0) ∧
    (∀ y x : Fin 4, iwht4x4 zeroBlk y x = 0) := by
  constructor <;> intro y x <;> fin_cases y <;> fin_cases x <;> rfl

/-- C2: a single bit read on a state with sufficient buffered bits computes
`split = 1 + (((range - 1) * p) >> 8)`, aligns it as `bigsplit` at the
current bit offset of `value`, and then: if `value ≥ bigsplit` the bit is
true with `value -= bigsplit` and `range -= split`, else the bit is false
with `range = split` — compare-and-subtract first, renormalization after.
The first conjunct equates `BoolReader::cold_read_bit` (no refill needed)
with the step transcribed from the spec's words; the second exhibits the
same decision/update order inside `ArithmeticDecoder`'s bit body, where the
alignment `bc` is carried by `xrange` itself. -/
theorem bit_read_update_order :
    (∀ (r : BoolReader) (p : Nat), p ≤ 255 → 0 ≤ r.state.bitCount →
      128 ≤ r.state.range → r.state.range ≤ 255 →
      r.coldReadBit p = ((specReadBitStep r.state p).1,
        { r with state := (specReadBitStep r.state p).2 })) ∧
    (∀ (s : AState) (r bc p : Nat), p ≤ 255 → s.xrange = r * 2 ^ bc →
      128 ≤ r → r ≤ 255 → bc ≤ 56 →
      s.bitBody p =
        if splitOf r p * 2 ^ bc ≤ s.value then
          (true, { s with
            value := s.value - splitOf r p * 2 ^ bc
            xrange := (r - splitOf r p) * 2 ^ bc })
        else (false, { s with xrange := splitOf r p * 2 ^ bc })) := by
  constructor
  · intro r p hp h0 h1 h2
    unfold BoolReader.coldReadBit
    rw [if_neg (by omega), bitBody_eq_spec hp h1 h2]
  · intro s r bc p _ hx h1 h2 h3
    exact adBitBody_decomp p hx h1 h2 h3

/-- C2 witness: the spec step and the cold path agree on a concrete
normalized reader state, and the AD body decomposes on a concrete
normalized `xrange`. -/
theorem bit_read_update_order_witness :
    (brNorm.coldReadBit 91 = ((specReadBitStep bsNorm 91).1,
      { brNorm with state := (specReadBitStep bsNorm 91).2 })) ∧
    (asNorm.bitBody 10 =
      if splitOf 255 10 * 2 ^ 3 ≤ asNorm.value then
        (true, { asNorm with
          value := asNorm.value - splitOf 255 10 * 2 ^ 3
          xrange := (255 - splitOf 255 10) * 2 ^ 3 })
      else (false, { asNorm with xrange := splitOf 255 10 * 2 ^ 3 })) :=
  ⟨bit_read_update_order.1 brNorm 91 (by decide) (by decide) (by decide)
    (by decide),
   bit_read_update_order.2 asNorm 255 3 10 (by decide) rfl (by decide)
     (by decide) (by decide)⟩

/-- C9: for `p ≤ 255` and a normalized `range` in `[128, 256)`, the split
satisfies `1 ≤ split ≤ range - 1`; hence both branch outcomes of a bit read
leave the pre-normalization width at least 1, `range - split` cannot
underflow, and after renormalization the width is back in `[128, 256)` (the
debug assertions `range > 0` and `range >= 128` hold). -/
theorem split_bounds_safety :
    ∀ (range p : Nat), 128 ≤ range → range ≤ 255 → p ≤ 255 →
      (1 ≤ splitOf range p ∧ splitOf range p ≤ range - 1) ∧
      1 ≤ range - splitOf range p ∧
      (∀ s : BState, s.range = range →
        0 < (s.bitBody p).2.range ∧ 128 ≤ (s.bitBody p).2.range) := by
  intro range p h1 h2 hp
  have ha := splitOf_pos range p
  have hb := splitOf_le (show 2 ≤ range by omega) hp
  refine ⟨⟨ha, hb⟩, by omega, ?_⟩
  intro s hs
  subst hs
  have := bitBody_range_mem hp h1 h2 (p := p)
  omega

/-- C9 witness: the bounds at `range = 128`, `p = 255` on a concrete
state. -/
theorem split_bounds_safety_witness :
    (1 ≤ splitOf 128 255 ∧ splitOf 128 255 ≤ 128 - 1) ∧
    1 ≤ 128 - splitOf 128 255 ∧
    (∀ s : BState, s.range = 128 →
      0 < (s.bitBody 255).2.range ∧ 128 ≤ (s.bitBody 255).2.range) :=
  split_bounds_safety 128 255 (by decide) (by decide) (by decide)

/-- C4 counterexample: the claim asserts that after every completed bit
read the recovered `ArithmeticDecoder` width lies in `[128, 256)`.  On the
initialized decoder for the 3-byte buffer `[0, 0, 0]`, a single successful
`read_bool(0)` leaves `xrange = 1`, whose recovered range is 1, far below
128 — the wide encoding is only renormalized by the refill guard at the
start of the next read. -/
theorem range_invariant_cex :
    ADecoder.initialized [zeroChunk] 3 = Except.ok adZeros ∧
    (adZeros.readBool 0).2.isPastEof = false ∧
    (adZeros.readBool 0).2.state.xrange = 1 ∧
    recoveredRange (adZeros.readBool 0).2.state.xrange < 128 := by
  refine ⟨rfl, by decide, by decide, by decide⟩

/-- C4 (amended): the `[128, 256)` width invariant holds at each point the
code uses a width: in `BoolReader` the explicit `range` is in `[128, 256)`
after the renormalization at the end of every bit-read body, and in
`ArithmeticDecoder` the range recovered from `xrange` is in `[128, 256)` at
the start of every bit-read body (after the refill guard), while
immediately after a read `xrange` keeps only the weaker shape
`m * 2 ^ k` with `1 ≤ m ≤ 255`, renormalized by the next read's guard. -/
theorem range_invariant_amended :
    (∀ (s : BState) (p : Nat), p ≤ 255 → 128 ≤ s.range → s.range ≤ 255 →
      128 ≤ (s.bitBody p).2.range ∧ (s.bitBody p).2.range < 256) ∧
    (∀ xr : Nat, NormX xr → 128 ≤ recoveredRange xr ∧ recoveredRange xr < 256) ∧
    (∀ (s : AState) (p : Nat), NormX s.xrange → p ≤ 255 →
      InvX ((s.bitBody p).2.xrange)) ∧
    (∀ xr : Nat, InvX xr → 2 ^ 7 ≤ xr → NormX xr) := by
  refine ⟨?_, ?_, ?_, ?_⟩
  · intro s p hp h1 h2
    have := bitBody_range_mem hp h1 h2 (s := s) (p := p)
    omega
  · intro xr hn
    obtain ⟨r, bc, h1, h2, h3, rfl⟩ := hn
    rw [recoveredRange_normx h1 h2 h3]
    omega
  · intro s p hn hp
    obtain ⟨r, bc, h1, h2, h3, hx⟩ := hn
    exact invx_adBitBody p hx h1 h2 h3 hp
  · intro xr hi h128
    exact normx_of_invx hi h128

/-- C4 amended-claim witness: concrete normalized states on both sides. -/
theorem range_invariant_amended_witness :
    (128 ≤ (bsEdge.bitBody 0).2.range ∧ (bsEdge.bitBody 0).2.range < 256) ∧
    (128 ≤ recoveredRange (255 * 2 ^ 24) ∧
      recoveredRange (255 * 2 ^ 24) < 256) ∧
    InvX ((asInit.bitBody 0).2.xrange) ∧
    NormX (128 * 2 ^ 5) :=
  ⟨range_invariant_amended.1 bsEdge 0 (by decide) (by decide) (by decide),
   range_invariant_amended.2.1 (255 * 2 ^ 24)
     ⟨255, 24, by decide, by decide, by decide, rfl⟩,
   range_invariant_amended.2.2.1 asInit 0
     ⟨255, 24, by decide, by decide, by decide, rfl⟩ (by decide),
   range_invariant_amended.2.2.2 (128 * 2 ^ 5)
     ⟨128, 5, by decide, by decide, by decide, rfl⟩ (by decide)⟩

/-- C3: two-tier EOF tolerance, in both decoders.  When the tail count has
reached exactly 0, one further refill succeeds by shifting in an implicit
zero byte (count becomes −1, not the sentinel, and the decoder is not past
EOF); the next refill attempt sets the EOF sentinel; and once the sentinel
is set (with the chunks exhausted and a refill required), every read
returns the untrusted default with the state unchanged, and `check` on the
resulting decoder returns `BitStreamError`. -/
theorem eof_two_tier_tolerance :
    (∀ r : BoolReader, r.finalBytesRemaining = 0 →
      r.loadFinalBytes = { r with
        finalBytesRemaining := -1
        state := { r.state with
          value := r.state.value * 2 ^ 8 % 2 ^ 64
          bitCount := r.state.bitCount + 8 } } ∧
      r.loadFinalBytes.isPastEof = false) ∧
    (∀ r : BoolReader, r.finalBytesRemaining = -1 →
      r.loadFinalBytes.finalBytesRemaining = eofSentinel ∧
      r.loadFinalBytes.isPastEof = true) ∧
    (∀ (r : BoolReader) (p : Nat), r.isPastEof = true →
      r.state.bitCount < 0 → r.chunks.get? r.state.chunkIndex = none →
      r.coldReadBit p = (false, r) ∧
      (r.coldReadBit p).2.check (0 : Nat) =
        Except.error DecodingError.BitStreamError) ∧
    (∀ d : ADecoder, d.finalBytesRemaining = 0 →
      d.loadFromFinalBytes = { d with
        finalBytesRemaining := -1
        state := { d.state with
          xrange := d.state.xrange * 2 ^ 8 % 2 ^ 64
          value := d.state.value * 2 ^ 8 % 2 ^ 64 } } ∧
      d.loadFromFinalBytes.isPastEof = false) ∧
    (∀ d : ADecoder, d.finalBytesRemaining = -1 →
      d.loadFromFinalBytes.finalBytesRemaining = eofSentinel ∧
      d.loadFromFinalBytes.isPastEof = true) ∧
    (∀ (d : ADecoder) (p : Nat), d.isPastEof = true →
      d.state.xrange < 2 ^ 7 → d.chunks.get? d.state.chunkIndex = none →
      d.coldReadBit p = (false, d) ∧
      (d.coldReadBit p).2.check (0 : Nat) =
        Except.error DecodingError.BitStreamError) := by
  refine ⟨?_, ?_, ?_, ?_, ?_, ?_⟩
  · intro r h
    constructor
    · unfold BoolReader.loadFinalBytes
      rw [h]
      norm_num
    · unfold BoolReader.isPastEof BoolReader.loadFinalBytes
      rw [h]
      simp [eofSentinel]
  · intro r h
    constructor
    · unfold BoolReader.loadFinalBytes
      rw [h]
      norm_num
    · unfold BoolReader.isPastEof BoolReader.loadFinalBytes
      rw [h]
      simp [eofSentinel]
  · intro r p heof hbc hnone
    have hrem : r.finalBytesRemaining = eofSentinel := by
      simpa [BoolReader.isPastEof] using heof
    have hload : r.loadFinalBytes = r := by
      unfold BoolReader.loadFinalBytes
      rw [if_neg (by rw [hrem]; unfold eofSentinel; omega),
        if_neg (by rw [hrem]; unfold eofSentinel; omega)]
      conv_lhs => rw [← hrem]
    have h1 : r.coldReadBit p = (false, r) := by
      unfold BoolReader.coldReadBit
      rw [if_pos hbc, hnone]
      dsimp only
      rw [hload, if_pos heof]
    refine ⟨h1, ?_⟩
    rw [h1]
    unfold BoolReader.check
    rw [if_pos heof]
  · intro d h
    constructor
    · unfold ADecoder.loadFromFinalBytes
      rw [h]
      norm_num
    · unfold ADecoder.isPastEof ADecoder.loadFromFinalBytes
      rw [h]
      simp [eofSentinel]
  · intro d h
    constructor
    · unfold ADecoder.loadFromFinalBytes
      rw [h]
      norm_num
    · unfold ADecoder.isPastEof ADecoder.loadFromFinalBytes
      rw [h]
      simp [eofSentinel]
  · intro d p heof hx hnone
    have hrem : d.finalBytesRemaining = eofSentinel := by
      simpa [ADecoder.isPastEof] using heof
    have hload : d.loadFromFinalBytes = d := by
      unfold ADecoder.loadFromFinalBytes
      rw [if_neg (by rw [hrem]; unfold eofSentinel; omega),
        if_neg (by rw [hrem]; unfold eofSentinel; omega)]
      conv_lhs => rw [← hrem]
    have h1 : d.coldReadBit p = (false, d) := by
      unfold ADecoder.coldReadBit
      rw [if_pos hx, hnone]
      dsimp only
      rw [hload, if_pos heof]
    refine ⟨h1, ?_⟩
    rw [h1]
    unfold ADecoder.check
    rw [if_pos heof]

/-- C3 witness: the tiers on concrete readers/decoders: `brHel` after its
tail is notionally exhausted (remaining set to 0 / −1 / sentinel). -/
theorem eof_two_tier_tolerance_witness :
    ({ brHel with finalBytesRemaining := 0 }.loadFinalBytes.isPastEof
      = false) ∧
    ({ brHel with finalBytesRemaining := -1 }.loadFinalBytes.isPastEof
      = true) ∧
    ({ brHel with finalBytesRemaining := eofSentinel }.coldReadBit 128 =
      (false, { brHel with finalBytesRemaining := eofSentinel })) ∧
    ({ adHel with finalBytesRemaining := 0 }.loadFromFinalBytes.isPastEof
      = false) ∧
    ({ adHel with finalBytesRemaining := -1 }.loadFromFinalBytes.isPastEof
      = true) ∧
    (adEof.coldReadBit 77).2.check (0 : Nat)
      = Except.error DecodingError.BitStreamError :=
  ⟨(eof_two_tier_tolerance.1 _ rfl).2,
   (eof_two_tier_tolerance.2.1 _ rfl).2,
   (eof_two_tier_tolerance.2.2.1
     { brHel with finalBytesRemaining := eofSentinel } 128 (by decide)
     (by decide) rfl).1,
   (eof_two_tier_tolerance.2.2.2.1 _ rfl).2,
   (eof_two_tier_tolerance.2.2.2.2.1 _ rfl).2,
   (eof_two_tier_tolerance.2.2.2.2.2 adEof 77 (by decide) (by decide) rfl).2⟩

/-- C5: `read_optional_signed_value(n)` short-circuits: on the cold path,
if the flag bit decodes false the call returns 0 and the final decoder is
exactly the decoder after that single `p = 128` flag read — independent of
`n`; if the flag decodes true, the call reads an `n`-bit magnitude and then
one sign bit, returning `-magnitude` when the sign bit is set.  The same
short-circuit holds in `FastDecoder::read_optional_signed_value`: with a
false flag the speculative result is fixed by the single-flag state alone,
whatever `n` is. -/
theorem optional_signed_short_circuit :
    (∀ (d : ADecoder) (n : Nat), d.coldReadFlag.1 = false →
      d.coldReadOptionalSignedValue n = (0, d.coldReadFlag.2)) ∧
    (∀ (d : ADecoder) (n : Nat), d.coldReadFlag.1 = true →
      d.coldReadOptionalSignedValue n =
        (if ((d.coldReadFlag.2.coldReadLiteral n).2.coldReadFlag).1 then
            -(Int.ofNat (d.coldReadFlag.2.coldReadLiteral n).1)
          else Int.ofNat (d.coldReadFlag.2.coldReadLiteral n).1,
         ((d.coldReadFlag.2.coldReadLiteral n).2.coldReadFlag).2)) ∧
    (∀ (chunks : List Chunk) (s : AState) (n : Nat),
      (fastReadFlagA chunks s).1 = false →
      fastReadOptionalSignedValueA chunks s n =
        if (fastReadFlagA chunks s).2.chunkIndex ≤ chunks.length then
          some (0, (fastReadFlagA chunks s).2)
        else none) := by
  refine ⟨?_, ?_, ?_⟩
  · intro d n hf
    unfold ADecoder.coldReadOptionalSignedValue
    rw [if_pos hf]
  · intro d n hf
    unfold ADecoder.coldReadOptionalSignedValue
    rw [if_neg (by rw [hf]; exact Bool.noConfusion)]
  · intro chunks s n hf
    unfold fastReadOptionalSignedValueA
    rw [if_pos hf]

/-- C5 witness: on the `"hel"` decoder the first flag decodes false, and
`read_optional_signed_value(200)` returns 0 with the one-flag state. -/
theorem optional_signed_short_circuit_witness :
    adHel.coldReadFlag.1 = false ∧
    adHel.coldReadOptionalSignedValue 200 = (0, adHel.coldReadFlag.2) ∧
    fastReadOptionalSignedValueA adHel.chunks adHel.state 200 =
      (if (fastReadFlagA adHel.chunks adHel.state).2.chunkIndex ≤
          adHel.chunks.length then
        some (0, (fastReadFlagA adHel.chunks adHel.state).2)
      else none) :=
  ⟨by decide,
   optional_signed_short_circuit.1 adHel 200 (by decide),
   optional_signed_short_circuit.2.2 adHel.chunks adHel.state 200 (by decide)⟩

/-- C7: `init(buffer, declared_length)` fails with `NotEnoughInitData`
exactly when the buffer holds zero 4-byte words yet the declared length
demands data; in every case where the declared length is consistent with
the buffer (`4 * (words - 1) < len ≤ 4 * words`, or `len = 4 * words`),
init succeeds and splits the buffer into `len / 4` whole words plus a tail
of `len mod 4` bytes. -/
theorem init_framing :
    (∀ (buf : List Chunk) (len : Nat),
      (BoolReader.init buf len =
          Except.error DecodingError.NotEnoughInitData ↔
        buf = [] ∧ len ≠ 0) ∧
      (ADecoder.initialized buf len =
          Except.error DecodingError.NotEnoughInitData ↔
        buf = [] ∧ len ≠ 0)) ∧
    (∀ (buf : List Chunk) (len : Nat),
      len ≤ 4 * buf.length → 4 * buf.length < len + 4 →
      (∃ r, BoolReader.init buf len = Except.ok r ∧
        r.chunks.length = len / 4 ∧
        r.finalBytesRemaining = Int.ofNat (len % 4)) ∧
      (∃ d, ADecoder.initialized buf len = Except.ok d ∧
        d.chunks.length = len / 4)) := by
  constructor
  · intro buf len
    constructor
    · by_cases h4 : len = 4 * buf.length
      · simp only [BoolReader.init, if_pos h4]
        constructor
        · intro habs; exact Except.noConfusion habs
        · rintro ⟨rfl, hlen⟩
          simp only [List.length_nil, Nat.mul_zero] at h4
          exact absurd h4 hlen
      · cases hbuf : buf.getLast? with
        | none =>
            have hnil : buf = [] := List.getLast?_eq_none_iff.mp hbuf
            subst hnil
            have hlen : len ≠ 0 := by simpa using h4
            simp only [BoolReader.init, if_neg h4, hbuf]
            simp [hlen]
        | some last =>
            have hne : buf ≠ [] := by
              intro h; subst h; exact Option.noConfusion hbuf
            simp only [BoolReader.init, if_neg h4, hbuf]
            constructor
            · intro habs; exact Except.noConfusion habs
            · rintro ⟨hb, _⟩; exact absurd hb hne
    · by_cases h4 : len = 4 * buf.length
      · simp only [ADecoder.initialized, if_pos h4]
        cases hg : buf.get? 0 with
        | some c =>
            constructor
            · intro habs; exact Except.noConfusion habs
            · rintro ⟨rfl, hlen⟩
              simp only [List.length_nil, Nat.mul_zero] at h4
              exact absurd h4 hlen
        | none =>
            constructor
            · intro habs; exact Except.noConfusion habs
            · rintro ⟨rfl, hlen⟩
              simp only [List.length_nil, Nat.mul_zero] at h4
              exact absurd h4 hlen
      · cases hbuf : buf.getLast? with
        | none =>
            have hnil : buf = [] := List.getLast?_eq_none_iff.mp hbuf
            subst hnil
            have hlen : len ≠ 0 := by simpa using h4
            simp only [ADecoder.initialized, if_neg h4, hbuf]
            simp [hlen]
        | some last =>
            have hne : buf ≠ [] := by
              intro h; subst h; exact Option.noConfusion hbuf
            simp only [ADecoder.initialized, if_neg h4, hbuf]
            cases hg : buf.dropLast.get? 0 with
            | some c =>
                constructor
                · intro habs; exact Except.noConfusion habs
                · rintro ⟨hb, _⟩; exact absurd hb hne
            | none =>
                constructor
                · intro habs; exact Except.noConfusion habs
                · rintro ⟨hb, _⟩; exact absurd hb hne
  · intro buf len hle hgt
    constructor
    · by_cases h4 : len = 4 * buf.length
      · refine ⟨_, by simp only [BoolReader.init, if_pos h4]; rfl, ?_, ?_⟩
        · dsimp only
          omega
        · dsimp only
          have h0 : len % 4 = 0 := by omega
          rw [h0]
          rfl
      · have hbne : buf ≠ [] := by
          intro h
          subst h
          simp only [List.length_nil, Nat.mul_zero] at hle h4
          omega
        obtain ⟨last, hlast⟩ : ∃ l, buf.getLast? = some l := by
          cases hb : buf.getLast? with
          | none => exact absurd (List.getLast?_eq_none_iff.mp hb) hbne
          | some l => exact ⟨l, rfl⟩
        have hb1 : 0 < buf.length := List.length_pos.mpr hbne
        refine ⟨_, by simp only [BoolReader.init, if_neg h4, hlast]; rfl,
          ?_, ?_⟩
        · dsimp only
          rw [List.length_dropLast]
          omega
        · dsimp only
          rw [List.length_dropLast]
          congr 1
          omega
    · by_cases h4 : len = 4 * buf.length
      · simp only [ADecoder.initialized, if_pos h4]
        cases hg : buf.get? 0 with
        | some c =>
            refine ⟨_, rfl, ?_⟩
            dsimp only
            omega
        | none =>
            refine ⟨_, rfl, ?_⟩
            dsimp only
            have : buf.length ≤ 0 := List.get?_eq_none.mp hg
            omega
      · have hbne : buf ≠ [] := by
          intro h
          subst h
          simp only [List.length_nil, Nat.mul_zero] at hle h4
          omega
        obtain ⟨last, hlast⟩ : ∃ l, buf.getLast? = some l := by
          cases hb : buf.getLast? with
          | none => exact absurd (List.getLast?_eq_none_iff.mp hb) hbne
          | some l => exact ⟨l, rfl⟩
        have hb1 : 0 < buf.length := List.length_pos.mpr hbne
        simp only [ADecoder.initialized, if_neg h4, hlast]
        cases hg : buf.dropLast.get? 0 with
        | some c =>
            refine ⟨_, rfl, ?_⟩
            dsimp only
            rw [List.length_dropLast]
            omega
        | none =>
            refine ⟨_, rfl, ?_⟩
            dsimp only
            have : buf.dropLast.length ≤ 0 := List.get?_eq_none.mp hg
            rw [List.length_dropLast] at this
            rw [List.length_dropLast]
            omega

/-- C7 witness: the error on an empty buffer with a nonzero declared
length, and the framing of the `"hel"` buffer (one partial chunk, declared
length 3: zero whole words and a 3-byte tail). -/
theorem init_framing_witness :
    (BoolReader.init [] 3 = Except.error DecodingError.NotEnoughInitData ↔
      ([] : List Chunk) = [] ∧ 3 ≠ 0) ∧
    (∃ r, BoolReader.init [⟨104, 101, 108, 0⟩] 3 = Except.ok r ∧
      r.chunks.length = 3 / 4 ∧ r.finalBytesRemaining = Int.ofNat (3 % 4)) :=
  ⟨(init_framing.1 [] 3).1,
   (init_framing.2 [⟨104, 101, 108, 0⟩] 3 (by decide) (by decide)).1⟩

/-- C8: `read_flag()` agrees with `read_bool(128)`: definitionally in
`BoolReader`, and in `ArithmeticDecoder` on every state satisfying the
`xrange` invariant, because the optimized split
`bigsplit = xrange - ((xrange >> (bit_count + 1)) << bit_count)` of
`fast_read_flag` coincides with the general
`split = 1 + (((range - 1) * 128) >> 8)` of `fast_read_bit`: on a
normalized width both equal `ceil(range / 2) = range - range / 2`. -/
theorem flag_equals_bool128 :
    (∀ r : BoolReader, r.readFlag = r.readBool 128) ∧
    (∀ d : ADecoder, InvX d.state.xrange → d.readFlag = d.readBool 128) ∧
    (∀ s : AState, NormX s.xrange → s.flagBody = s.bitBody 128) ∧
    (∀ range : Nat, 1 ≤ range →
      splitOf range 128 = range - range / 2 ∧
      range - range / 2 = (range + 1) / 2) := by
  refine ⟨?_, ?_, ?_, ?_⟩
  · intro r; rfl
  · intro d hinv
    unfold ADecoder.readFlag ADecoder.readBool
    rw [fastReadFlagA_eq_bit128 hinv]
    rfl
  · intro s hn
    obtain ⟨r, bc, h1, h2, h3, hx⟩ := hn
    exact flagBody_eq_bitBody128 hx h1 h2 h3
  · intro range h
    refine ⟨splitOf_128 h, by omega⟩

/-- C8 witness: the agreement on the concrete `"hel"` decoder and on a
concrete normalized state, with the split value at `range = 255`. -/
theorem flag_equals_bool128_witness :
    brHel.readFlag = brHel.readBool 128 ∧
    adHel.readFlag = adHel.readBool 128 ∧
    asNorm.flagBody = asNorm.bitBody 128 ∧
    splitOf 255 128 = 255 - 255 / 2 :=
  ⟨flag_equals_bool128.1 brHel,
   flag_equals_bool128.2.1 adHel ⟨255, 0, by decide, by decide, by decide, rfl⟩,
   flag_equals_bool128.2.2.1 asNorm
     ⟨255, 3, by decide, by decide, by decide, rfl⟩,
   (flag_equals_bool128.2.2.2 255 (by decide)).1⟩

/-- C6: for every well-formed tree table — witnessed by a rank function
that strictly decreases along every in-table edge, so every path reaches an
out-of-range target — the tree walk from a valid start index terminates
within rank-bounded fuel, never reads a node outside the table (a `some`
result certifies that every lookup succeeded), and returns
`TreeNode.value_from_branch` applied to the first out-of-range target
reached.  Shown for `ArithmeticDecoder::cold_read_with_tree`'s loop and for
`FastReader::fast_read_with_tree`'s loop. -/
theorem tree_walk_terminates :
    (∀ (tree : List TreeNode) (M : Nat → Nat), WfRank tree M →
      ∀ (fuel i : Nat) (d : ADecoder), i < tree.length → M i < fuel →
      ∃ t d1, tree.length ≤ t ∧
        ADecoder.coldTreeWalk tree fuel i d =
          some (TreeNode.value_from_branch t, d1)) ∧
    (∀ (tree : List TreeNode) (M : Nat → Nat), WfRank tree M →
      ∀ (fuel i : Nat) (chunks : List Chunk) (s : BState),
        i < tree.length → M i + 1 < fuel →
      ∃ t s1, tree.length ≤ t ∧
        fastTreeWalkB chunks tree fuel i s =
          some (TreeNode.value_from_branch t, s1)) :=
  ⟨fun _ _ hwf fuel i d hi hf => coldTreeWalkA_terminates hwf fuel i d hi hf,
   fun _ _ hwf fuel i chunks s hi hf =>
     fastTreeWalkB_terminates chunks hwf fuel i s hi hf⟩

/-- C6 witness: termination of both walks on the concrete three-node tree
with the concrete rank function, from the `"hel"` states. -/
theorem tree_walk_terminates_witness :
    WfRank testTree testRank ∧
    (∃ t d1, testTree.length ≤ t ∧
      ADecoder.coldTreeWalk testTree 4 0 adHel =
        some (TreeNode.value_from_branch t, d1)) ∧
    (∃ t s1, testTree.length ≤ t ∧
      fastTreeWalkB brHel.chunks testTree 5 0 brHel.state =
        some (TreeNode.value_from_branch t, s1)) :=
  ⟨by unfold WfRank; decide,
   tree_walk_terminates.1 testTree testRank (by unfold WfRank; decide) 4 0 adHel (by decide)
     (by decide),
   tree_walk_terminates.2 testTree testRank (by unfold WfRank; decide) 5 0 brHel.chunks
     brHel.state (by decide) (by decide)⟩

/-- C1: the speculative fast path refines the fully-checked cold path.  For
`ArithmeticDecoder`, on every state satisfying the `xrange` invariant,
each public read method (`read_bool`, `read_flag`, `read_literal`,
`read_optional_signed_value`, `read_with_tree`) — which runs the fast path
on a disposable copy, commits it only when the copy's `chunk_index` shows
no overrun past the real chunk count, and otherwise restores the snapshot
and re-executes the cold path — returns exactly the value and the final
decoder (state, tail bytes and EOF status included) that the cold path
alone would have produced.  Likewise for every `BoolReader` state and its
public read methods. -/
theorem fast_slow_equivalence :
    (∀ d : ADecoder, InvX d.state.xrange →
      (∀ p, d.readBool p = d.coldReadBool p) ∧
      (d.readFlag = d.coldReadFlag) ∧
      (∀ n, d.readLiteral n = d.coldReadLiteral n) ∧
      (∀ n, d.readOptionalSignedValue n = d.coldReadOptionalSignedValue n) ∧
      (∀ (tree : List TreeNode) (M : Nat → Nat) (fn : TreeNode)
          (fuel : Nat), WfRank tree M →
        (∀ i, i < tree.length → M i < fuel) →
        tree.get? fn.index = some fn →
        d.readWithTree tree fn fuel =
          d.coldReadWithTree tree fn.index fuel)) ∧
    (∀ r : BoolReader,
      (∀ p, r.readBool p = r.coldReadBit p) ∧
      (∀ n, r.readLiteral n = r.coldReadLiteral n) ∧
      (∀ n, r.readMagnitudeAndSign n = r.coldReadMagnitudeAndSign n) ∧
      (∀ (tree : List TreeNode) (skip : Bool) (fuel : Nat),
        cond skip 1 0 < tree.length →
        r.readWithTree tree skip fuel =
          BoolReader.coldTreeWalk tree fuel (cond skip 1 0) r)) := by
  constructor
  · intro d hinv
    refine ⟨fun p => readBool_eq_cold_A d p, readFlag_eq_cold_A d hinv,
      fun n => readLiteral_eq_cold_A d n hinv,
      fun n => readOptionalSignedValue_eq_cold_A d n hinv,
      fun tree M fn fuel hwf hfuel hfn =>
        readWithTree_eq_cold_A d tree fn fuel M hwf hfuel hfn⟩
  · intro r
    exact ⟨fun p => readBool_eq_cold_B r p,
      fun n => readLiteral_eq_cold_B r n,
      fun n => readMagnitudeAndSign_eq_cold_B r n,
      fun tree skip fuel hstart =>
        readWithTree_eq_cold_B r tree skip fuel hstart⟩

/-- C1 witness: the equivalence instantiated on the concrete `"hel"`
decoder and reader, including a tree read over the concrete three-node
tree. -/
theorem fast_slow_equivalence_witness :
    InvX adHel.state.xrange ∧
    adHel.readBool 10 = adHel.coldReadBool 10 ∧
    adHel.readFlag = adHel.coldReadFlag ∧
    adHel.readLiteral 3 = adHel.coldReadLiteral 3 ∧
    adHel.readOptionalSignedValue 4 = adHel.coldReadOptionalSignedValue 4 ∧
    adHel.readWithTree testTree ⟨1, 2, 100, 0⟩ 4 =
      adHel.coldReadWithTree testTree 0 4 ∧
    brHel.readBool 128 = brHel.coldReadBit 128 ∧
    brHel.readLiteral 8 = brHel.coldReadLiteral 8 ∧
    brHel.readMagnitudeAndSign 2 = brHel.coldReadMagnitudeAndSign 2 ∧
    brHel.readWithTree testTree false 9 =
      BoolReader.coldTreeWalk testTree 9 0 brHel := by
  have hinv : InvX adHel.state.xrange :=
    ⟨255, 0, by decide, by decide, by decide, rfl⟩
  have ha := fast_slow_equivalence.1 adHel hinv
  have hb := fast_slow_equivalence.2 brHel
  exact ⟨hinv, ha.1 10, ha.2.1, ha.2.2.1 3, ha.2.2.2.1 4,
    ha.2.2.2.2 testTree testRank ⟨1, 2, 100, 0⟩ 4 (by unfold WfRank; decide)
      (by decide) (by decide),
    hb.1 128, hb.2.1 8, hb.2.2.1 2, hb.2.2.2 testTree false 9 (by decide)⟩

end ImageWebp
